import Mathlib

/-!
Verification of the toy stack-machine assembler (`as.py`).

The development embeds the assembler's core pipeline as executable Lean
definitions: line preprocessing, regex-based tokenization, pass 1
(`parse`: instruction records plus a provisional label table), pass 2
(`translate_pseudo`: pseudo-instruction expansion with address
relabelling), and the final emission loop of `main` (target resolution,
in-place backpatching of placeholder immediates, binary rendering).
Python's mutable dict is modelled as an association list threaded through
the passes; Python exceptions are modelled with `Except`; Python's
arithmetic shift and masking on `int` are modelled with `Int.fdiv` and
`Int.emod`.
-/

/-- An instruction record: the `[label, mnemonic, immediate, target]`
list used throughout `as.py`. -/
structure Instr where
  label : Option String
  mnemonic : String
  imm : Int
  target : Option String
deriving DecidableEq, Repr

/-- The raw capture groups of the line regex `RE_LINE`:
`[label, mnemonic, immediate, target]`, immediate still textual. -/
structure Toks where
  label : Option String
  mnemonic : String
  immStr : Option String
  target : Option String
deriving DecidableEq, Repr

/-- The exceptions raised by `as.py`, one constructor per raise site,
fields mirroring the interpolated values of the message. `keyErr` and
`idxErr` model Python's own `KeyError`/`IndexError` in the final loop. -/
inductive AsmErr where
  | badLine (lnum : Nat) (raw : String)
  | dupLabel (lnum : Nat) (firstDef : Nat) (raw : String)
  | immRange (lnum : Nat) (raw : String)
  | undefTarget (reported : Nat) (target : String)
  | keyErr (key : String)
  | idxErr
deriving DecidableEq, Repr

/-- The `label_lut` dict: association list, insertion ordered. -/
abbrev LabelLut := List (String × Nat)

/-- Dict lookup (`lut[k]` / `lut.get(k)`). -/
def dlookup : LabelLut → String → Option Nat
  | [], _ => none
  | (k, v) :: r, s => if k = s then some v else dlookup r s

/-- Dict membership (`k in lut`). -/
def dmem (lut : LabelLut) (s : String) : Bool :=
  (dlookup lut s).isSome

/-- Dict assignment (`lut[k] = v`): overwrite in place, else append. -/
def dinsert : LabelLut → String → Nat → LabelLut
  | [], k, v => [(k, v)]
  | (k', v') :: r, k, v =>
    if k' = k then (k, v) :: r else (k', v') :: dinsert r k v

/-! ### Character classes and string helpers -/

/-- Python `str.split()` whitespace. -/
def pyWs : List Char := [' ', '\t', '\n', '\x0b', '\x0c', '\r']

/-- Whitespace test used by `preprocess`. -/
def isWs (c : Char) : Bool := pyWs.contains c

/-- First character of regex `RE_ID`: `[_a-z]`. -/
def isIdStart (c : Char) : Bool := c == '_' || ('a' ≤ c && c ≤ 'z')

/-- Regex `\w`: `[A-Za-z0-9_]`. -/
def isWordChar (c : Char) : Bool :=
  isIdStart c || ('0' ≤ c && c ≤ '9') || ('A' ≤ c && c ≤ 'Z')

/-- Regex `[0-9]`. -/
def isDig (c : Char) : Bool := '0' ≤ c && c ≤ '9'

/-- Regex `[0-9a-f]`. -/
def isHexDig (c : Char) : Bool := isDig c || ('a' ≤ c && c ≤ 'f')

/-- Helper of `splitWs`: `cur` is the current word, reversed. -/
def splitWsAux (cur : List Char) : List Char → List (List Char)
  | [] => if cur.isEmpty then [] else [cur.reverse]
  | c :: rest =>
    if isWs c then
      if cur.isEmpty then splitWsAux [] rest
      else cur.reverse :: splitWsAux [] rest
    else splitWsAux (c :: cur) rest

/-- Split on whitespace runs, as Python `str.split()`. -/
def splitWs (cs : List Char) : List (List Char) :=
  splitWsAux [] cs

/-- `preprocess`: lowercase, strip the `;` comment, collapse whitespace
(`' '.join(line.split())`). -/
def preprocess (s : String) : String :=
  let lower := s.toList.map Char.toLower
  let nocomment := lower.takeWhile (fun c => c ≠ ';')
  String.intercalate " " ((splitWs nocomment).map String.mk)

/-- Python `str.strip()` as applied to raw lines in error messages. -/
def pyStrip (s : String) : String :=
  String.mk (((s.toList.dropWhile isWs).reverse.dropWhile isWs).reverse)

/-! ### Immediate codec -/

/-- Decimal digit accumulation, as `int(s)`. -/
def decDigits (cs : List Char) : Nat :=
  cs.foldl (fun a c => a * 10 + (c.toNat - '0'.toNat)) 0

/-- Value of one lowercase hex digit. -/
def hexDigVal (c : Char) : Nat :=
  if c ≤ '9' then c.toNat - '0'.toNat else c.toNat - 'a'.toNat + 10

/-- Hexadecimal accumulation, as `int(s, 16)` on the digits. -/
def hexDigits (cs : List Char) : Nat :=
  cs.foldl (fun a c => a * 16 + hexDigVal c) 0

/-- Python `'0x' in s`. -/
def has0x : List Char → Bool
  | '0' :: 'x' :: _ => true
  | _ :: rest => has0x rest
  | [] => false

/-- `imm2int`: empty/absent literal is 0; `0x` means hexadecimal
(`int(s, 16)` accepts the `0x` prefix); otherwise signed decimal. -/
def imm2int : Option String → Int
  | none => 0
  | some s =>
    if s = "" then 0
    else if has0x s.toList then (hexDigits (s.toList.drop 2) : Int)
    else
      match s.toList with
      | '-' :: ds => -(decDigits ds : Int)
      | ds => (decDigits ds : Int)

/-- Bit `k` of `n`, rendered as a character. -/
def bitChar (n k : Nat) : Char := if n / 2 ^ k % 2 = 1 then '1' else '0'

/-- `int2nibble`: `f'{imm & 0xf:04b}'` — mask the low 4 bits (Python `&`
on `int` is `emod` by 16) and render 4 binary digits. -/
def int2nibble (i : Int) : String :=
  let n := (i.emod 16).toNat
  String.mk [bitChar n 3, bitChar n 2, bitChar n 1, bitChar n 0]

/-! ### Tokenizer (the regex `RE_LINE`) -/

/-- The alternatives of `RE_MNEMONIC`, in regex order. -/
def MNEMONICS : List String :=
  ["hlt", "in", "out", "puship", "push", "drop", "dup", "add", "sub",
   "not", "nand", "and", "slt", "shl", "shr", "jeq", "jmp"]

/-- Greedy match of `RE_ID` = `[_a-z]\w*`; returns the identifier and
the rest. Backtracking into a shorter identifier can never help, since
every continuation in `RE_LINE` starts with a non-word character. -/
def takeId (cs : List Char) : Option (String × List Char) :=
  match cs with
  | c :: rest =>
    if isIdStart c then
      some (String.mk (c :: rest.takeWhile isWordChar), rest.dropWhile isWordChar)
    else none
  | [] => none

/-- Optional single space (regex `' ?'`). -/
def dropSpace1 (cs : List Char) : List Char :=
  match cs with
  | ' ' :: r => r
  | _ => cs

/-- `RE_IMM` = `-?[0-9]+|0x[0-9a-f]+` anchored at end of input (it is
always followed by `$` in `RE_LINE`), alternatives in regex order. -/
def matchImmEnd (cs : List Char) : Option String :=
  let dec : Bool :=
    match cs with
    | '-' :: ds => !ds.isEmpty && ds.all isDig
    | ds => !ds.isEmpty && ds.all isDig
  if dec then some (String.mk cs)
  else
    match cs with
    | '0' :: 'x' :: hs =>
      if !hs.isEmpty && hs.all isHexDig then some (String.mk cs) else none
    | _ => none

/-- Operand continuation of `RE_INSTR` after a mnemonic: the lookbehinds
`(?<=push)`, `(?<=jmp)`, `(?<!jmp)(?<!push)` select the operand shape by
the mnemonic just matched. Returns `(immediate, target)` captures. -/
def instrCont (m : String) (rest : List Char) : Option (Option String × Option String) :=
  if m = "push" then
    match rest with
    | ' ' :: r => (matchImmEnd r).map (fun s => (some s, none))
    | _ => none
  else if m = "jmp" then
    match rest with
    | [] => some (none, none)
    | ' ' :: r =>
      match takeId r with
      | some (id, []) => some (none, some id)
      | _ => none
    | _ => none
  else if rest.isEmpty then some (none, none) else none

/-- Ordered alternation of `RE_MNEMONIC`: first alternative that is a
prefix of the input and whose operand continuation succeeds. -/
def tryMnems : List String → List Char → Option (String × Option String × Option String)
  | [], _ => none
  | m :: ms, cs =>
    if m.toList.isPrefixOf cs then
      match instrCont m (cs.drop m.toList.length) with
      | some (i, t) => some (m, i, t)
      | none => tryMnems ms cs
    else tryMnems ms cs

/-- `RE_INSTR` anchored at end of input. -/
def matchInstr (cs : List Char) : Option (String × Option String × Option String) :=
  tryMnems MNEMONICS cs

/-- The labelled branch of `RE_LINE`: `ID ?: ?` then `' ?'` then
`RE_INSTR$`. -/
def matchLineLabeled (cs : List Char) : Option Toks :=
  match takeId cs with
  | none => none
  | some (lbl, r1) =>
    match dropSpace1 r1 with
    | ':' :: r3 =>
      (matchInstr (dropSpace1 (dropSpace1 r3))).map
        (fun x => ⟨some lbl, x.1, x.2.1, x.2.2⟩)
    | _ => none

/-- `tokenize`: `fullmatch(RE_LINE, line)`, returning the capture groups
`[label, mnemonic, immediate, target]` or `none`. The optional label
group is tried first, as the regex engine does. -/
def tokenize (line : String) : Option Toks :=
  match matchLineLabeled line.toList with
  | some t => some t
  | none =>
    (matchInstr (dropSpace1 line.toList)).map (fun x => ⟨none, x.1, x.2.1, x.2.2⟩)

/-! ### Pass 1: `parse` -/

/-- Loop body of `parse` over `enumerate(asm_file, start=1)`. On error
the pair also returns the label table as mutated so far (the Python dict
is shared with the caller when the exception propagates). -/
def parseAux (lnum : Nat) (lines : List String) (lut : LabelLut)
    (acc : List Instr) : Except (AsmErr × LabelLut) (List Instr × LabelLut) :=
  match lines with
  | [] => .ok (acc, lut)
  | raw :: rest =>
    let line := preprocess raw
    if line = "" then parseAux (lnum + 1) rest lut acc
    else
      match tokenize line with
      | none => .error (.badLine lnum (pyStrip raw), lut)
      | some toks =>
        let step : Except (AsmErr × LabelLut) LabelLut :=
          match toks.label with
          | some l =>
            match dlookup lut l with
            | some firstLn => .error (.dupLabel lnum firstLn (pyStrip raw), lut)
            | none => .ok (dinsert lut l lnum)
          | none => .ok lut
        match step with
        | .error e => .error e
        | .ok lut' =>
          let imm := imm2int toks.immStr
          if !((-128 : Int) ≤ imm && imm ≤ 255) then
            .error (.immRange lnum (pyStrip raw), lut')
          else
            parseAux (lnum + 1) rest lut'
              (acc ++ [⟨toks.label, toks.mnemonic, imm, toks.target⟩])

/-- `parse`: pass 1 over the raw source lines, starting from the given
(normally empty) label table. -/
def parse (lines : List String) (lut : LabelLut) :
    Except (AsmErr × LabelLut) (List Instr × LabelLut) :=
  parseAux 1 lines lut []

/-! ### Pass 2: `translate_pseudo` and `PSEUDO_TRANSLATIONS_LUT` -/

/-- `PSEUDO_TRANSLATIONS_LUT['not']`. -/
def pseudoNot (t : Instr) : List Instr :=
  [⟨t.label, "dup", 0, none⟩, ⟨none, "nand", 0, none⟩]

/-- `PSEUDO_TRANSLATIONS_LUT['and']`. -/
def pseudoAnd (t : Instr) : List Instr :=
  [⟨t.label, "nand", 0, none⟩, ⟨none, "dup", 0, none⟩, ⟨none, "nand", 0, none⟩]

/-- `PSEUDO_TRANSLATIONS_LUT['push']`: `t[2] >> 4` is Python's floor
shift (`Int.fdiv` by 16) and `t[2] & 15` is `Int.emod` by 16. -/
def pseudoPush (t : Instr) : List Instr :=
  [⟨t.label, "push", 4, none⟩,
   ⟨none, "push", t.imm.fdiv 16, none⟩,
   ⟨none, "shl", 0, none⟩,
   ⟨none, "push", t.imm.emod 16, none⟩,
   ⟨none, "add", 0, none⟩]

/-- `PSEUDO_TRANSLATIONS_LUT['jmp']`. -/
def pseudoJmp (t : Instr) : List Instr :=
  [⟨t.label, "puship", 0, none⟩,
   ⟨none, "push", 4, none⟩,
   ⟨none, "push", 0, none⟩,
   ⟨none, "shl", 0, none⟩,
   ⟨none, "push", 0, none⟩,
   ⟨none, "add", 0, none⟩,
   ⟨none, "add", 0, none⟩,
   ⟨none, "jmp", 0, t.target⟩]

/-- `PSEUDO_TRANSLATIONS_LUT` as a keyed lookup. -/
def pseudoLut (m : String) : Option (Instr → List Instr) :=
  if m = "not" then some pseudoNot
  else if m = "and" then some pseudoAnd
  else if m = "push" then some pseudoPush
  else if m = "jmp" then some pseudoJmp
  else none

/-- The expansion condition of `translate_pseudo` (lines 143–146). -/
def shouldExpand (i : Instr) : Bool :=
  i.mnemonic == "not" || i.mnemonic == "and" ||
  (i.mnemonic == "push" && !((-8 : Int) ≤ i.imm && i.imm ≤ 15)) ||
  (i.mnemonic == "jmp" && i.target.isSome)

/-- Loop body of `translate_pseudo` over `enumerate(pseudo_asm, start=1)`:
validate the target, rebind the label to `addr + instr_offset`, then
expand or pass through. -/
def translateAux (addr off : Nat) (prog : List Instr) (lut : LabelLut)
    (acc : List Instr) : Except AsmErr (List Instr × LabelLut) :=
  match prog with
  | [] => .ok (acc, lut)
  | i :: rest =>
    let tchk : Except AsmErr Unit :=
      match i.target with
      | some t => if dmem lut t then .ok () else .error (.undefTarget (addr + 1) t)
      | none => .ok ()
    match tchk with
    | .error e => .error e
    | .ok _ =>
      let lut' : LabelLut :=
        match i.label with
        | some l => dinsert lut l (addr + off)
        | none => lut
      if shouldExpand i then
        match pseudoLut i.mnemonic with
        | some f =>
          translateAux (addr + 1) (off + ((f i).length - 1)) rest lut' (acc ++ f i)
        | none => .error (.keyErr i.mnemonic)
      else translateAux (addr + 1) off rest lut' (acc ++ [i])

/-- `translate_pseudo`: pass 2. -/
def translate_pseudo (prog : List Instr) (lut : LabelLut) :
    Except AsmErr (List Instr × LabelLut) :=
  translateAux 1 0 prog lut []

/-! ### Final loop of `main`: target resolution, patching, emission -/

/-- `OPCODES_LUT`. -/
def OPCODES_LUT : List (String × String) :=
  [("hlt", "0000"), ("in", "0001"), ("out", "0010"), ("puship", "0011"),
   ("push", "0100"), ("drop", "0101"), ("dup", "0110"),
   ("add", "1000"), ("sub", "1001"), ("nand", "1010"), ("slt", "1011"),
   ("shl", "1100"), ("shr", "1101"), ("jeq", "1110"), ("jmp", "1111")]

/-- Lookup in `OPCODES_LUT` (`KeyError` modelled by `none`). -/
def opcodeOf : List (String × String) → String → Option String
  | [], _ => none
  | (k, v) :: r, s => if k = s then some v else opcodeOf r s

/-- Python list assignment `bc[i][1] = v` with Python index semantics:
a negative index counts from the end; out of range is an `IndexError`
(`none`). Only the second component (the immediate bits) is replaced. -/
def pySetSnd (bc : List (String × String)) (i : Int) (v : String) :
    Option (List (String × String)) :=
  let j : Int := if i < 0 then i + bc.length else i
  if j < 0 then none
  else
    match bc[j.toNat]? with
    | some e => some (bc.set j.toNat (e.1, v))
    | none => none

/-- Loop body of the binary-generation loop of `main` over
`enumerate(label_asm)` (0-based): resolve the target, patch the
placeholder immediates at `addr-5` and `addr-3`, then append the
opcode/immediate encoding of the current instruction. -/
def emitAux (addr : Nat) (prog : List Instr) (lut : LabelLut)
    (bc : List (String × String)) : Except AsmErr (List (String × String)) :=
  match prog with
  | [] => .ok bc
  | i :: rest =>
    let step : Except AsmErr (List (String × String)) :=
      match i.target with
      | some t =>
        match dlookup lut t with
        | some ta =>
          let hi := int2nibble ((ta >>> 4 : Nat) : Int)
          let lo := int2nibble (ta : Int)
          match pySetSnd bc ((addr : Int) - 5) hi with
          | some bc1 =>
            match pySetSnd bc1 ((addr : Int) - 3) lo with
            | some bc2 => .ok bc2
            | none => .error .idxErr
          | none => .error .idxErr
        | none => .error (.keyErr t)
      | none => .ok bc
    match step with
    | .error e => .error e
    | .ok bc' =>
      match opcodeOf OPCODES_LUT i.mnemonic with
      | some opc => emitAux (addr + 1) rest lut (bc' ++ [(opc, int2nibble i.imm)])
      | none => .error (.keyErr i.mnemonic)

/-- The binary-generation loop of `main`. -/
def emit (prog : List Instr) (lut : LabelLut) :
    Except AsmErr (List (String × String)) :=
  emitAux 0 prog lut []

/-- The whole pipeline of `main`'s core: pass 1, pass 2, emission. The
label table created empty in `main` is threaded through all phases. -/
def assemble (lines : List String) : Except AsmErr (List (String × String)) :=
  match parse lines [] with
  | .error (e, _) => .error e
  | .ok (pa, lut) =>
    match translate_pseudo pa lut with
    | .error e => .error e
    | .ok (la, lut') => emit la lut'

/-- The text written to the output file: one `opcode ++ immediate` line
per instruction. -/
def emitLines (bc : List (String × String)) : List String :=
  bc.map (fun e => e.1 ++ e.2)

/-! ### Characterization helpers

Derived definitions used to state and prove closed-form descriptions of
the two loops; each is proven equal to the corresponding loop below. -/

/-- The label-rebinding step of `translate_pseudo` at address `a`. -/
def bindLbl (lut : LabelLut) (a : Nat) (i : Instr) : LabelLut :=
  match i.label with
  | some l => dinsert lut l a
  | none => lut

/-- The block of native instructions one source instruction contributes
to `label_asm`. -/
def translInstr (i : Instr) : List Instr :=
  if shouldExpand i then
    match pseudoLut i.mnemonic with
    | some f => f i
    | none => [i]
  else [i]

/-- Growth in instruction count contributed by one instruction. -/
def growth (i : Instr) : Nat := (translInstr i).length - 1

/-- Cumulative `instr_offset` after the first `k` instructions. -/
def offsetUpTo : List Instr → Nat → Nat
  | _, 0 => 0
  | [], _ + 1 => 0
  | i :: rest, k + 1 => growth i + offsetUpTo rest k

/-- The label table produced by the `translate_pseudo` loop. -/
def lutAfter (addr off : Nat) (prog : List Instr) (lut : LabelLut) : LabelLut :=
  match prog with
  | [] => lut
  | i :: rest => lutAfter (addr + 1) (off + growth i) rest (bindLbl lut (addr + off) i)

/-- Plain (unpatched) encoding of one native instruction. -/
def encodeInstr (i : Instr) : String × String :=
  ((opcodeOf OPCODES_LUT i.mnemonic).getD "", int2nibble i.imm)

/-- Final encoding of one source instruction's block, after patching:
for a symbolic branch exactly the entries at block offsets 2 and 4 (the
two placeholder `push 0`) are overwritten with the high and low nibbles
of the resolved target address. -/
def emitBlock (lut : LabelLut) (i : Instr) : List (String × String) :=
  match i.target with
  | some t =>
    let ta := (dlookup lut t).getD 0
    (((translInstr i).map encodeInstr).set 2
        ("0100", int2nibble ((ta >>> 4 : Nat) : Int))).set 4
      ("0100", int2nibble (ta : Int))
  | none => (translInstr i).map encodeInstr

/-- Well-formedness delivered by the tokenizer: a symbolic target occurs
only on `jmp` (the regex allows a target capture only there). -/
def wtJmpB (prog : List Instr) : Bool :=
  prog.all (fun i => i.target.isNone || i.mnemonic == "jmp")

/-- Well-formedness delivered by the tokenizer: every mnemonic is one of
the fixed alternatives of `RE_MNEMONIC`. -/
def wmB (prog : List Instr) : Bool :=
  prog.all (fun i => MNEMONICS.contains i.mnemonic)

/-- Every symbolic target is a key of the label table. -/
def wdefB (prog : List Instr) (lut : LabelLut) : Bool :=
  prog.all (fun i => match i.target with | some t => dmem lut t | none => true)

/-- The labels carried by a program, in order. -/
def labelsOf (prog : List Instr) : List String :=
  prog.filterMap (fun i => i.label)

/-- Numeric value of one output bit character. -/
def bitVal (c : Char) : Nat := if c = '1' then 1 else 0

/-- Numeric value of an emitted 4-bit immediate field. -/
def nibVal (s : String) : Nat :=
  s.toList.foldl (fun a c => 2 * a + bitVal c) 0

/-- Source line at 0-based index `k` defines label `l`. -/
def definesLbl (lines : List String) (k : Nat) (l : String) : Prop :=
  ∃ raw toks, lines[k]? = some raw ∧ tokenize (preprocess raw) = some toks ∧
    toks.label = some l

/-- A raw line `parse` gets through without an error of its own: blank
after preprocessing, or tokenizable with an in-range immediate. -/
def lineOk (raw : String) : Prop :=
  preprocess raw = "" ∨ ∃ toks, tokenize (preprocess raw) = some toks ∧
    -128 ≤ imm2int toks.immStr ∧ imm2int toks.immStr ≤ 255

/-- A 249-instruction program: a symbolic `jmp` to a label whose true
final address (256) exceeds the 8-bit range of the patch slots. -/
def cBigProg : List Instr :=
  ⟨none, "jmp", 0, some "end"⟩ ::
    (List.replicate 247 ⟨none, "hlt", 0, none⟩ ++ [⟨some "end", "hlt", 0, none⟩])

/-- The label table `parse` would hand `translate_pseudo` for
`cBigProg` (provisional value: the defining line number). -/
def cBigLut : LabelLut := [("end", 249)]

/-! ## Lemmas about the label-table dictionary -/

theorem dlookup_dinsert_self (lut : LabelLut) (k : String) (v : Nat) :
    dlookup (dinsert lut k v) k = some v := by
  induction lut with
  | nil => simp [dinsert, dlookup]
  | cons p r ih =>
    obtain ⟨a, b⟩ := p
    by_cases h : a = k
    · simp [dinsert, h, dlookup]
    · simp [dinsert, h, dlookup, ih]

theorem dlookup_dinsert_ne (lut : LabelLut) (k k' : String) (v : Nat) (h : k' ≠ k) :
    dlookup (dinsert lut k' v) k = dlookup lut k := by
  induction lut with
  | nil => simp [dinsert, dlookup, h]
  | cons p r ih =>
    obtain ⟨a, b⟩ := p
    by_cases ha : a = k'
    · subst ha; simp [dinsert, dlookup, h]
    · simp [dinsert, ha, dlookup, ih]

theorem dmem_dinsert (lut : LabelLut) (k k' : String) (v : Nat)
    (h : dmem lut k = true) : dmem (dinsert lut k' v) k = true := by
  by_cases hk : k' = k
  · subst hk; simp [dmem, dlookup_dinsert_self]
  · simpa [dmem, dlookup_dinsert_ne lut k k' v hk] using h

theorem wdefB_bindLbl (prog : List Instr) (lut : LabelLut) (a : Nat) (i : Instr)
    (h : wdefB prog lut = true) : wdefB prog (bindLbl lut a i) = true := by
  cases hl : i.label with
  | none => simpa [bindLbl, hl] using h
  | some l =>
    simp only [wdefB, List.all_eq_true] at h ⊢
    intro j hj
    have hjh := h j hj
    cases ht : j.target with
    | none => simp [ht]
    | some t =>
      simp only [ht] at hjh ⊢
      simp only [bindLbl, hl]
      exact dmem_dinsert _ _ _ _ hjh

/-! ## Lemmas about pass 2 (`translate_pseudo`) -/

theorem pseudoLut_not : pseudoLut "not" = some pseudoNot := rfl

theorem pseudoLut_and : pseudoLut "and" = some pseudoAnd := rfl

theorem pseudoLut_push : pseudoLut "push" = some pseudoPush := rfl

theorem pseudoLut_jmp : pseudoLut "jmp" = some pseudoJmp := rfl

theorem shouldExpand_mnem (i : Instr) (h : shouldExpand i = true) :
    i.mnemonic = "not" ∨ i.mnemonic = "and" ∨ i.mnemonic = "push" ∨ i.mnemonic = "jmp" := by
  simp only [shouldExpand, Bool.or_eq_true, Bool.and_eq_true, beq_iff_eq] at h
  rcases h with ((h | h) | ⟨h, _⟩) | ⟨h, _⟩ <;> tauto

theorem translateAux_body (addr off : Nat) (i : Instr) (rest : List Instr)
    (acc : List Instr) (lut' : LabelLut) :
    (if shouldExpand i then
      match pseudoLut i.mnemonic with
      | some f =>
        translateAux (addr + 1) (off + ((f i).length - 1)) rest lut' (acc ++ f i)
      | none => Except.error (AsmErr.keyErr i.mnemonic)
     else translateAux (addr + 1) off rest lut' (acc ++ [i])) =
    translateAux (addr + 1) (off + growth i) rest lut' (acc ++ translInstr i) := by
  by_cases hse : shouldExpand i = true
  · rcases shouldExpand_mnem i hse with h | h | h | h <;>
      simp [hse, h, pseudoLut, translInstr, growth,
        pseudoNot, pseudoAnd, pseudoPush, pseudoJmp]
  · simp only [Bool.not_eq_true] at hse
    simp [hse, translInstr, growth]

theorem translateAux_cons_none (addr off : Nat) (i : Instr) (rest : List Instr)
    (lut : LabelLut) (acc : List Instr) (ht : i.target = none) :
    translateAux addr off (i :: rest) lut acc =
      translateAux (addr + 1) (off + growth i) rest (bindLbl lut (addr + off) i)
        (acc ++ translInstr i) := by
  rw [show translateAux (addr + 1) (off + growth i) rest (bindLbl lut (addr + off) i)
        (acc ++ translInstr i) =
      translateAux (addr + 1) (off + growth i) rest
        (match i.label with | some l => dinsert lut l (addr + off) | none => lut)
        (acc ++ translInstr i) from rfl]
  rw [← translateAux_body]
  simp only [translateAux, ht]

theorem translateAux_cons_def (addr off : Nat) (i : Instr) (rest : List Instr)
    (lut : LabelLut) (acc : List Instr) (t : String) (ht : i.target = some t)
    (hd : dmem lut t = true) :
    translateAux addr off (i :: rest) lut acc =
      translateAux (addr + 1) (off + growth i) rest (bindLbl lut (addr + off) i)
        (acc ++ translInstr i) := by
  rw [show translateAux (addr + 1) (off + growth i) rest (bindLbl lut (addr + off) i)
        (acc ++ translInstr i) =
      translateAux (addr + 1) (off + growth i) rest
        (match i.label with | some l => dinsert lut l (addr + off) | none => lut)
        (acc ++ translInstr i) from rfl]
  rw [← translateAux_body]
  simp only [translateAux, ht, hd, if_true]

theorem translateAux_cons_undef (addr off : Nat) (i : Instr) (rest : List Instr)
    (lut : LabelLut) (acc : List Instr) (t : String) (ht : i.target = some t)
    (hd : dmem lut t = false) :
    translateAux addr off (i :: rest) lut acc =
      .error (.undefTarget (addr + 1) t) := by
  simp only [translateAux, ht, hd]
  simp

theorem translateAux_ok (prog : List Instr) : ∀ addr off lut acc,
    wdefB prog lut = true →
    translateAux addr off prog lut acc =
      .ok (acc ++ prog.flatMap translInstr, lutAfter addr off prog lut) := by
  induction prog with
  | nil => intro addr off lut acc _; simp [translateAux, lutAfter]
  | cons i rest ih =>
    intro addr off lut acc h
    have hhead : (match i.target with | some t => dmem lut t | none => true) = true := by
      simp only [wdefB, List.all_cons, Bool.and_eq_true] at h
      exact h.1
    have htail : wdefB rest lut = true := by
      simp only [wdefB, List.all_cons, Bool.and_eq_true] at h
      exact h.2
    cases ht : i.target with
    | none =>
      rw [translateAux_cons_none addr off i rest lut acc ht,
        ih _ _ _ _ (wdefB_bindLbl _ _ _ _ htail)]
      simp [lutAfter, List.flatMap_cons, List.append_assoc]
    | some t =>
      have hd : dmem lut t = true := by simpa [ht] using hhead
      rw [translateAux_cons_def addr off i rest lut acc t ht hd,
        ih _ _ _ _ (wdefB_bindLbl _ _ _ _ htail)]
      simp [lutAfter, List.flatMap_cons, List.append_assoc]

theorem translate_pseudo_ok (prog : List Instr) (lut : LabelLut)
    (h : wdefB prog lut = true) :
    translate_pseudo prog lut =
      .ok (prog.flatMap translInstr, lutAfter 1 0 prog lut) := by
  have := translateAux_ok prog 1 0 lut [] h
  simpa [translate_pseudo] using this

theorem translInstr_eq_cases (i : Instr) :
    translInstr i = [i] ∨ translInstr i = pseudoNot i ∨ translInstr i = pseudoAnd i ∨
      translInstr i = pseudoPush i ∨ translInstr i = pseudoJmp i := by
  by_cases hse : shouldExpand i = true
  · rcases shouldExpand_mnem i hse with h | h | h | h <;>
      simp [translInstr, hse, h, pseudoLut]
  · simp only [Bool.not_eq_true] at hse
    simp [translInstr, hse]

theorem translInstr_length_pos (i : Instr) : 0 < (translInstr i).length := by
  rcases translInstr_eq_cases i with h | h | h | h | h <;>
    simp [h, pseudoNot, pseudoAnd, pseudoPush, pseudoJmp]

theorem translInstr_jmp (i : Instr) (t : String) (hm : i.mnemonic = "jmp")
    (ht : i.target = some t) : translInstr i = pseudoJmp i := by
  have hse : shouldExpand i = true := by simp [shouldExpand, hm, ht]
  simp [translInstr, hse, hm, pseudoLut]

theorem dlookup_bindLbl_ne (lut : LabelLut) (a : Nat) (i : Instr) (l : String)
    (h : i.label ≠ some l) : dlookup (bindLbl lut a i) l = dlookup lut l := by
  cases hl : i.label with
  | none => simp [bindLbl, hl]
  | some l' =>
    have hne : l' ≠ l := by intro e; exact h (by rw [hl, e])
    simp [bindLbl, hl, dlookup_dinsert_ne lut l l' a hne]

theorem lutAfter_lookup_of_not_mem (prog : List Instr) (l : String)
    (h : ∀ i ∈ prog, i.label ≠ some l) : ∀ addr off lut,
    dlookup (lutAfter addr off prog lut) l = dlookup lut l := by
  induction prog with
  | nil => intro addr off lut; simp [lutAfter]
  | cons i rest ih =>
    intro addr off lut
    simp only [lutAfter]
    rw [ih (fun j hj => h j (by simp [hj]))]
    exact dlookup_bindLbl_ne lut (addr + off) i l (h i (by simp))

theorem lutAfter_lookup (prog : List Instr) : ∀ (k : Nat) (ik : Instr) (l : String),
    prog[k]? = some ik → ik.label = some l →
    (∀ j, k < j → ∀ i', prog[j]? = some i' → i'.label ≠ some l) →
    ∀ addr off lut,
    dlookup (lutAfter addr off prog lut) l =
      some (addr + k + (off + offsetUpTo prog k)) := by
  induction prog with
  | nil => intro k ik l hk; simp at hk
  | cons i rest ih =>
    intro k ik l hk hl hafter addr off lut
    cases k with
    | zero =>
      rw [List.getElem?_cons_zero] at hk
      have hik : ik = i := by injection hk with h; exact h.symm
      subst hik
      simp only [lutAfter]
      rw [lutAfter_lookup_of_not_mem rest l ?hnm]
      case hnm =>
        intro j hj
        obtain ⟨n, hn⟩ := List.mem_iff_getElem?.mp hj
        exact hafter (n + 1) (by omega) j (by simpa using hn)
      simp [bindLbl, hl, dlookup_dinsert_self, offsetUpTo]
    | succ k' =>
      rw [List.getElem?_cons_succ] at hk
      simp only [lutAfter]
      rw [ih k' ik l hk hl ?hrest (addr + 1) (off + growth i) (bindLbl lut (addr + off) i)]
      case hrest =>
        intro j hj i' hji'
        exact hafter (j + 1) (by omega) i' (by simpa using hji')
      congr 1
      simp only [offsetUpTo]
      omega

theorem offsetUpTo_le (prog : List Instr) : ∀ k k', k ≤ k' →
    offsetUpTo prog k ≤ offsetUpTo prog k' := by
  induction prog with
  | nil =>
    intro k k' _
    cases k <;> cases k' <;> simp [offsetUpTo]
  | cons i rest ih =>
    intro k k' h
    cases k with
    | zero => simp [offsetUpTo]
    | succ m =>
      cases k' with
      | zero => omega
      | succ m' =>
        simp only [offsetUpTo]
        have := ih m m' (by omega)
        omega

theorem flatMap_block_length {β : Type} (prog : List Instr) (f : Instr → List β)
    (hlen : ∀ i, (f i).length = (translInstr i).length) :
    ∀ k, k ≤ prog.length →
    ((prog.take k).flatMap f).length = k + offsetUpTo prog k := by
  induction prog with
  | nil =>
    intro k hk
    have hk0 : k = 0 := by simp at hk; omega
    subst hk0
    simp [offsetUpTo]
  | cons i rest ih =>
    intro k hk
    cases k with
    | zero => simp [offsetUpTo]
    | succ m =>
      rw [List.take_cons (by omega)]
      simp only [Nat.add_sub_cancel, List.flatMap_cons, List.length_append, offsetUpTo]
      rw [ih m (by simpa using hk)]
      have h1 := translInstr_length_pos i
      have h2 := hlen i
      unfold growth
      omega

theorem flatMap_getElem_block {β : Type} (prog : List Instr) (f : Instr → List β)
    (hlen : ∀ i, (f i).length = (translInstr i).length) :
    ∀ (k : Nat) (ik : Instr), prog[k]? = some ik → ∀ r,
    (prog.flatMap f)[k + offsetUpTo prog k + r]? = (f ik)[r]? ∨
      ((f ik).length ≤ r ∧ (f ik)[r]? = none) := by
  induction prog with
  | nil => intro k ik hk; simp at hk
  | cons i rest ih =>
    intro k ik hk r
    cases k with
    | zero =>
      rw [List.getElem?_cons_zero] at hk
      have hik : i = ik := by injection hk
      subst hik
      by_cases hr : r < (f i).length
      · left
        simp only [List.flatMap_cons, offsetUpTo, Nat.zero_add, Nat.add_zero, Nat.zero_add]
        rw [List.getElem?_append_left (by simpa using hr)]
      · right
        exact ⟨by omega, by rw [List.getElem?_eq_none_iff]; omega⟩
    | succ m =>
      rw [List.getElem?_cons_succ] at hk
      rcases ih m ik hk r with h | h
      · left
        rw [← h]
        simp only [List.flatMap_cons, offsetUpTo]
        rw [List.getElem?_append_right (by
          have h1 := translInstr_length_pos i
          have h2 := hlen i
          unfold growth
          omega)]
        congr 1
        have h1 := translInstr_length_pos i
        have h2 := hlen i
        unfold growth
        omega
      · right; exact h

/-! ## Lemmas about the binary-generation loop -/

theorem opcodeOf_native (m : String) (hm : m ∈ MNEMONICS) (h1 : m ≠ "not")
    (h2 : m ≠ "and") : (opcodeOf OPCODES_LUT m).isSome = true := by
  simp only [MNEMONICS, List.mem_cons, List.not_mem_nil, or_false] at hm
  rcases hm with rfl | rfl | rfl | rfl | rfl | rfl | rfl | rfl | rfl | rfl | rfl |
    rfl | rfl | rfl | rfl | rfl | rfl
  all_goals first
    | decide
    | exact absurd rfl h1
    | exact absurd rfl h2

theorem encodeInstr_eq (j : Instr) (opc : String)
    (hopc : opcodeOf OPCODES_LUT j.mnemonic = some opc) :
    encodeInstr j = (opc, int2nibble j.imm) := by
  simp [encodeInstr, hopc]

theorem emitAux_cons_plain (addr : Nat) (j : Instr) (rest : List Instr)
    (lut : LabelLut) (bc : List (String × String)) (ht : j.target = none)
    (opc : String) (hopc : opcodeOf OPCODES_LUT j.mnemonic = some opc) :
    emitAux addr (j :: rest) lut bc =
      emitAux (addr + 1) rest lut (bc ++ [(opc, int2nibble j.imm)]) := by
  simp only [emitAux, ht, hopc]

theorem emitAux_plains (blk : List Instr) :
    ∀ (lut : LabelLut) (bc : List (String × String)) (rest : List Instr),
    (∀ j ∈ blk, j.target = none) →
    (∀ j ∈ blk, (opcodeOf OPCODES_LUT j.mnemonic).isSome = true) →
    emitAux bc.length (blk ++ rest) lut bc =
      emitAux (bc ++ blk.map encodeInstr).length rest lut (bc ++ blk.map encodeInstr) := by
  induction blk with
  | nil => intro lut bc rest _ _; simp
  | cons j blkr ih =>
    intro lut bc rest h1 h2
    have hj1 : j.target = none := h1 j (by simp)
    obtain ⟨opc, hopc⟩ := Option.isSome_iff_exists.mp (h2 j (by simp))
    rw [List.cons_append, emitAux_cons_plain bc.length j (blkr ++ rest) lut bc hj1 opc hopc]
    have hlen : bc.length + 1 = (bc ++ [(opc, int2nibble j.imm)]).length := by simp
    rw [hlen, ih lut (bc ++ [(opc, int2nibble j.imm)]) rest
      (fun x hx => h1 x (by simp [hx])) (fun x hx => h2 x (by simp [hx]))]
    simp [List.map_cons, encodeInstr_eq j opc hopc, List.append_assoc]

theorem pySetSnd_append (bc L : List (String × String)) (r : Nat) (e : String × String)
    (hr : L[r]? = some e) (v : String) :
    pySetSnd (bc ++ L) ((bc.length + r : Nat) : Int) v =
      some (bc ++ L.set r (e.1, v)) := by
  have hnn : ¬ (((bc.length + r : Nat) : Int) < 0) := by
    have := Int.natCast_nonneg (bc.length + r)
    omega
  have htn : (((bc.length + r : Nat) : Int)).toNat = bc.length + r := Int.toNat_natCast _
  simp only [pySetSnd, if_neg hnn, htn]
  rw [List.getElem?_append_right (by omega)]
  have hsub : bc.length + r - bc.length = r := by omega
  rw [hsub, hr]
  simp only [Option.some.injEq]
  rw [List.set_append, if_neg (by omega), hsub]

theorem emitBlock_jmp (lut : LabelLut) (i : Instr) (t : String) (ta : Nat)
    (hm : i.mnemonic = "jmp") (ht : i.target = some t)
    (hta : dlookup lut t = some ta) :
    emitBlock lut i =
      [("0011", int2nibble 0), ("0100", int2nibble 4),
       ("0100", int2nibble ((ta >>> 4 : Nat) : Int)), ("1100", int2nibble 0),
       ("0100", int2nibble (ta : Int)), ("1000", int2nibble 0),
       ("1000", int2nibble 0), ("1111", int2nibble 0)] := by
  have htr := translInstr_jmp i t hm ht
  simp [emitBlock, ht, hta, htr, pseudoJmp, encodeInstr, opcodeOf, OPCODES_LUT, List.set]

theorem emitAux_jmpBlock (i : Instr) (t : String) (ta : Nat) (lut : LabelLut)
    (bc : List (String × String)) (rest : List Instr)
    (hm : i.mnemonic = "jmp") (ht : i.target = some t)
    (hta : dlookup lut t = some ta) :
    emitAux bc.length (pseudoJmp i ++ rest) lut bc =
      emitAux (bc ++ emitBlock lut i).length rest lut (bc ++ emitBlock lut i) := by
  have h7 : pseudoJmp i =
      ([⟨i.label, "puship", 0, none⟩, ⟨none, "push", 4, none⟩, ⟨none, "push", 0, none⟩,
        ⟨none, "shl", 0, none⟩, ⟨none, "push", 0, none⟩, ⟨none, "add", 0, none⟩,
        ⟨none, "add", 0, none⟩] : List Instr) ++ [⟨none, "jmp", 0, i.target⟩] := rfl
  have henc : ([⟨i.label, "puship", 0, none⟩, ⟨none, "push", 4, none⟩, ⟨none, "push", 0, none⟩,
        ⟨none, "shl", 0, none⟩, ⟨none, "push", 0, none⟩, ⟨none, "add", 0, none⟩,
        ⟨none, "add", 0, none⟩] : List Instr).map encodeInstr =
      [("0011", int2nibble 0), ("0100", int2nibble 4), ("0100", int2nibble 0),
       ("1100", int2nibble 0), ("0100", int2nibble 0), ("1000", int2nibble 0),
       ("1000", int2nibble 0)] := by
    simp [encodeInstr, opcodeOf, OPCODES_LUT]
  rw [h7, List.append_assoc,
    emitAux_plains _ lut bc _
      (by intro x hx; simp at hx
          rcases hx with rfl | rfl | rfl | rfl | rfl | rfl | rfl <;> rfl)
      (by intro x hx; simp at hx
          rcases hx with rfl | rfl | rfl | rfl | rfl | rfl | rfl <;> rfl)]
  rw [henc]
  rw [show (bc ++ [(("0011" : String), int2nibble 0), ("0100", int2nibble 4),
      ("0100", int2nibble 0), ("1100", int2nibble 0), ("0100", int2nibble 0),
      ("1000", int2nibble 0), ("1000", int2nibble 0)]).length = bc.length + 7 by simp]
  simp only [List.singleton_append, emitAux, ht, hta]
  rw [show ((bc.length + 7 : Nat) : Int) - 5 = ((bc.length + 2 : Nat) : Int) by push_cast; ring]
  rw [pySetSnd_append bc _ 2 ("0100", int2nibble 0) rfl _]
  simp only [List.set]
  rw [show ((bc.length + 7 : Nat) : Int) - 3 = ((bc.length + 4 : Nat) : Int) by push_cast; ring]
  rw [pySetSnd_append bc _ 4 ("0100", int2nibble 0) rfl _]
  simp only [List.set]
  rw [emitBlock_jmp lut i t ta hm ht hta]
  simp [opcodeOf, OPCODES_LUT, List.append_assoc]

theorem translInstr_plain (i : Instr) (ht : i.target = none)
    (hm : i.mnemonic ∈ MNEMONICS) :
    (∀ j ∈ translInstr i, j.target = none) ∧
    (∀ j ∈ translInstr i, (opcodeOf OPCODES_LUT j.mnemonic).isSome = true) := by
  by_cases hse : shouldExpand i = true
  · rcases shouldExpand_mnem i hse with h | h | h | h
    · have htr : translInstr i = pseudoNot i := by simp [translInstr, hse, h, pseudoLut]
      rw [htr]
      constructor <;>
        (intro j hj; simp [pseudoNot] at hj; rcases hj with rfl | rfl) <;> rfl
    · have htr : translInstr i = pseudoAnd i := by simp [translInstr, hse, h, pseudoLut]
      rw [htr]
      constructor <;>
        (intro j hj; simp [pseudoAnd] at hj; rcases hj with rfl | rfl | rfl) <;> rfl
    · have htr : translInstr i = pseudoPush i := by simp [translInstr, hse, h, pseudoLut]
      rw [htr]
      constructor <;>
        (intro j hj; simp [pseudoPush] at hj
         rcases hj with rfl | rfl | rfl | rfl | rfl) <;> rfl
    · exfalso
      simp [shouldExpand, h, ht] at hse
  · simp only [Bool.not_eq_true] at hse
    have htr : translInstr i = [i] := by simp [translInstr, hse]
    rw [htr]
    refine ⟨by intro j hj; simp at hj; cases hj; exact ht, ?_⟩
    intro j hj
    simp at hj
    cases hj
    apply opcodeOf_native i.mnemonic hm
    · intro e; simp [shouldExpand, e] at hse
    · intro e; simp [shouldExpand, e] at hse

theorem emitAux_ok (prog : List Instr) : ∀ (lut : LabelLut) (bc : List (String × String)),
    wtJmpB prog = true → wmB prog = true → wdefB prog lut = true →
    emitAux bc.length (prog.flatMap translInstr) lut bc =
      .ok (bc ++ prog.flatMap (emitBlock lut)) := by
  induction prog with
  | nil => intro lut bc _ _ _; simp [emitAux]
  | cons i rest ih =>
    intro lut bc h1 h2 h3
    simp only [wtJmpB, wmB, wdefB, List.all_cons, Bool.and_eq_true] at h1 h2 h3
    obtain ⟨h1i, h1r⟩ := h1
    obtain ⟨h2i, h2r⟩ := h2
    obtain ⟨h3i, h3r⟩ := h3
    rw [List.flatMap_cons, List.flatMap_cons]
    cases ht : i.target with
    | some t =>
      have hm : i.mnemonic = "jmp" := by simpa [ht] using h1i
      have hta : ∃ ta, dlookup lut t = some ta := by
        simp only [ht, dmem] at h3i
        exact Option.isSome_iff_exists.mp h3i
      obtain ⟨ta, hta⟩ := hta
      rw [translInstr_jmp i t hm ht]
      rw [emitAux_jmpBlock i t ta lut bc _ hm ht hta]
      rw [ih lut (bc ++ emitBlock lut i) (by simpa [wtJmpB] using h1r)
        (by simpa [wmB] using h2r) (by simpa [wdefB] using h3r)]
      simp [List.append_assoc]
    | none =>
      have hmem : i.mnemonic ∈ MNEMONICS := by simpa using h2i
      obtain ⟨hp1, hp2⟩ := translInstr_plain i ht hmem
      rw [emitAux_plains (translInstr i) lut bc _ hp1 hp2]
      rw [ih lut (bc ++ (translInstr i).map encodeInstr) (by simpa [wtJmpB] using h1r)
        (by simpa [wmB] using h2r) (by simpa [wdefB] using h3r)]
      have hblk : emitBlock lut i = (translInstr i).map encodeInstr := by
        simp [emitBlock, ht]
      simp [hblk, List.append_assoc]

theorem emit_ok (prog : List Instr) (lut : LabelLut)
    (h1 : wtJmpB prog = true) (h2 : wmB prog = true) (h3 : wdefB prog lut = true) :
    emit (prog.flatMap translInstr) lut = .ok (prog.flatMap (emitBlock lut)) := by
  have h := emitAux_ok prog lut [] h1 h2 h3
  simpa [emit] using h

/-! ## Arithmetic of the nibble codec -/

theorem nibVal_int2nibble (i : Int) : nibVal (int2nibble i) = (i.emod 16).toNat := by
  have h2 : 0 ≤ i.emod 16 := Int.emod_nonneg i (by norm_num)
  have h1 : i.emod 16 < 16 := Int.emod_lt_of_pos i (by norm_num)
  simp only [int2nibble]
  generalize hg : (i.emod 16).toNat = n
  have hlt : n < 16 := by omega
  interval_cases n <;> decide

theorem int_emod_eq_mod (i j : Int) : i.emod j = i % j := rfl

theorem nibble_reassemble (a : Nat) :
    nibVal (int2nibble ((a >>> 4 : Nat) : Int)) * 16 + nibVal (int2nibble (a : Int)) =
      a % 256 := by
  rw [nibVal_int2nibble, nibVal_int2nibble, Nat.shiftRight_eq_div_pow,
    int_emod_eq_mod, int_emod_eq_mod]
  have h16 : (2 : Nat) ^ 4 = 16 := by norm_num
  rw [h16]
  omega

/-! ## Further structural lemmas -/

theorem dmem_lutAfter (prog : List Instr) : ∀ (addr off : Nat) (lut : LabelLut)
    (t : String), dmem lut t = true → dmem (lutAfter addr off prog lut) t = true := by
  induction prog with
  | nil => intro addr off lut t h; simpa [lutAfter] using h
  | cons i rest ih =>
    intro addr off lut t h
    simp only [lutAfter]
    apply ih
    cases hl : i.label with
    | none => simpa [bindLbl, hl] using h
    | some l => simp only [bindLbl, hl]; exact dmem_dinsert _ _ _ _ h

theorem wdefB_lutAfter (prog prog' : List Instr) (lut : LabelLut) (addr off : Nat)
    (h : wdefB prog lut = true) :
    wdefB prog (lutAfter addr off prog' lut) = true := by
  simp only [wdefB, List.all_eq_true] at h ⊢
  intro i hi
  have hh := h i hi
  cases ht : i.target with
  | none => simp [ht]
  | some t =>
    simp only [ht] at hh ⊢
    exact dmem_lutAfter prog' addr off lut t hh

theorem emitBlock_length (lut : LabelLut) (i : Instr) :
    (emitBlock lut i).length = (translInstr i).length := by
  cases ht : i.target <;> simp [emitBlock, ht]

theorem translInstr_head_label (i : Instr) :
    ∃ hd tl, translInstr i = hd :: tl ∧ hd.label = i.label := by
  rcases translInstr_eq_cases i with h | h | h | h | h <;>
    simp [h, pseudoNot, pseudoAnd, pseudoPush, pseudoJmp]

/-! ## Lemmas about the tokenizer -/

theorem tryMnems_mem (ms : List String) (cs : List Char) (m : String)
    (i t : Option String) (h : tryMnems ms cs = some (m, i, t)) : m ∈ ms := by
  induction ms with
  | nil => simp [tryMnems] at h
  | cons m0 msr ih =>
    simp only [tryMnems] at h
    split at h
    · cases hc : instrCont m0 (cs.drop m0.toList.length) with
      | some r =>
        rw [hc] at h
        obtain ⟨r1, r2⟩ := r
        simp only [Option.some.injEq] at h
        injection h with h1 h2
        simp [h1]
      | none =>
        rw [hc] at h
        exact List.mem_cons_of_mem m0 (ih h)
    · exact List.mem_cons_of_mem m0 (ih h)

theorem matchInstr_mem (cs : List Char) (m : String) (i t : Option String)
    (h : matchInstr cs = some (m, i, t)) : m ∈ MNEMONICS :=
  tryMnems_mem MNEMONICS cs m i t h

theorem matchLineLabeled_mnem (cs : List Char) (r : Toks)
    (h : matchLineLabeled cs = some r) : r.mnemonic ∈ MNEMONICS := by
  unfold matchLineLabeled at h
  split at h
  · cases h
  · split at h
    · rw [Option.map_eq_some'] at h
      obtain ⟨x, hx, hfx⟩ := h
      obtain ⟨m, mi, mt⟩ := x
      rw [← hfx]
      exact matchInstr_mem _ _ _ _ hx
    · cases h

theorem tokenize_mnem (s : String) (r : Toks) (h : tokenize s = some r) :
    r.mnemonic ∈ MNEMONICS := by
  unfold tokenize at h
  split at h
  · rename_i t0 hl
    injection h with h
    subst h
    exact matchLineLabeled_mnem _ _ hl
  · rw [Option.map_eq_some'] at h
    obtain ⟨x, hx, hfx⟩ := h
    obtain ⟨m, mi, mt⟩ := x
    rw [← hfx]
    exact matchInstr_mem _ _ _ _ hx

/-! ## Error-path lemmas for pass 2 -/

theorem dmem_bindLbl (lut : LabelLut) (a : Nat) (i : Instr) (t : String)
    (h : dmem lut t = true) : dmem (bindLbl lut a i) t = true := by
  cases hli : i.label with
  | none => simpa [bindLbl, hli] using h
  | some l => simp only [bindLbl, hli]; exact dmem_dinsert _ _ _ _ h

theorem dmem_bindLbl_false (lut : LabelLut) (a : Nat) (i : Instr) (t : String)
    (h : dmem lut t = false) (hl : i.label ≠ some t) :
    dmem (bindLbl lut a i) t = false := by
  cases hli : i.label with
  | none => simpa [bindLbl, hli] using h
  | some l =>
    have hne : l ≠ t := fun e => hl (by rw [hli, e])
    simpa [bindLbl, hli, dmem, dlookup_dinsert_ne lut t l a hne] using h

theorem translateAux_error (prog : List Instr) : ∀ (addr off : Nat) (lut : LabelLut)
    (acc : List Instr) (k : Nat) (ik : Instr) (t : String),
    prog[k]? = some ik → ik.target = some t → dmem lut t = false →
    (∀ j i', j < k → prog[j]? = some i' → ∀ t', i'.target = some t' → dmem lut t' = true) →
    (∀ j i', j < k → prog[j]? = some i' → i'.label ≠ some t) →
    translateAux addr off prog lut acc = .error (.undefTarget (addr + k + 1) t) := by
  induction prog with
  | nil => intro addr off lut acc k ik t hk; simp at hk
  | cons i rest ih =>
    intro addr off lut acc k ik t hk htg hnd hbef hnl
    cases k with
    | zero =>
      rw [List.getElem?_cons_zero] at hk
      have hik : i = ik := by injection hk
      subst hik
      rw [translateAux_cons_undef addr off i rest lut acc t htg hnd]
    | succ k' =>
      rw [List.getElem?_cons_succ] at hk
      have hstep : translateAux addr off (i :: rest) lut acc =
          translateAux (addr + 1) (off + growth i) rest (bindLbl lut (addr + off) i)
            (acc ++ translInstr i) := by
        cases hti : i.target with
        | none => exact translateAux_cons_none addr off i rest lut acc hti
        | some t' =>
          exact translateAux_cons_def addr off i rest lut acc t' hti
            (hbef 0 i (by omega) (by simp) t' hti)
      rw [hstep, ih (addr + 1) (off + growth i) _ _ k' ik t hk htg
        (dmem_bindLbl_false lut (addr + off) i t hnd (hnl 0 i (by omega) (by simp)))
        (fun j i' hj hji' t' ht' =>
          dmem_bindLbl lut (addr + off) i t'
            (hbef (j + 1) i' (by omega) (by simpa using hji') t' ht'))
        (fun j i' hj hji' => hnl (j + 1) i' (by omega) (by simpa using hji'))]
      rw [show (addr + 1) + k' + 1 = addr + (k' + 1) + 1 from by omega]

/-! ## Step lemmas for pass 1 -/

theorem tokenize_empty : tokenize "" = none := by decide

theorem parseAux_cons_skip (lnum : Nat) (lines : List String) (lut : LabelLut)
    (acc : List Instr) (raw : String) (h : preprocess raw = "") :
    parseAux lnum (raw :: lines) lut acc = parseAux (lnum + 1) lines lut acc := by
  simp [parseAux, h]

theorem parseAux_cons_dup (lnum : Nat) (lines : List String) (lut : LabelLut)
    (acc : List Instr) (raw : String) (toks : Toks) (l : String) (n1 : Nat)
    (hne : ¬ preprocess raw = "") (htok : tokenize (preprocess raw) = some toks)
    (hlbl : toks.label = some l) (hdl : dlookup lut l = some n1) :
    parseAux lnum (raw :: lines) lut acc =
      .error (.dupLabel lnum n1 (pyStrip raw), lut) := by
  simp [parseAux, hne, htok, hlbl, hdl]

theorem parseAux_cons_ok_label (lnum : Nat) (lines : List String) (lut : LabelLut)
    (acc : List Instr) (raw : String) (toks : Toks) (l : String)
    (hne : ¬ preprocess raw = "") (htok : tokenize (preprocess raw) = some toks)
    (hlbl : toks.label = some l) (hdl : dlookup lut l = none)
    (h1 : -128 ≤ imm2int toks.immStr) (h2 : imm2int toks.immStr ≤ 255) :
    parseAux lnum (raw :: lines) lut acc =
      parseAux (lnum + 1) lines (dinsert lut l lnum)
        (acc ++ [⟨toks.label, toks.mnemonic, imm2int toks.immStr, toks.target⟩]) := by
  have hb : (!((-128 : Int) ≤ imm2int toks.immStr && imm2int toks.immStr ≤ 255)) = false := by
    simp [h1, h2]
  simp [parseAux, hne, htok, hlbl, hdl, hb]

theorem parseAux_cons_ok_nolabel (lnum : Nat) (lines : List String) (lut : LabelLut)
    (acc : List Instr) (raw : String) (toks : Toks)
    (hne : ¬ preprocess raw = "") (htok : tokenize (preprocess raw) = some toks)
    (hlbl : toks.label = none)
    (h1 : -128 ≤ imm2int toks.immStr) (h2 : imm2int toks.immStr ≤ 255) :
    parseAux lnum (raw :: lines) lut acc =
      parseAux (lnum + 1) lines lut
        (acc ++ [⟨toks.label, toks.mnemonic, imm2int toks.immStr, toks.target⟩]) := by
  have hb : (!((-128 : Int) ≤ imm2int toks.immStr && imm2int toks.immStr ≤ 255)) = false := by
    simp [h1, h2]
  simp [parseAux, hne, htok, hlbl, hb]

theorem preprocess_ne_of_tokenize (raw : String) (toks : Toks)
    (h : tokenize (preprocess raw) = some toks) : ¬ preprocess raw = "" := by
  intro e
  rw [e, tokenize_empty] at h
  cases h

theorem dlookup_eq_none_of_dmem_false (lut : LabelLut) (l : String)
    (h : dmem lut l = false) : dlookup lut l = none := by
  cases hd : dlookup lut l with
  | none => rfl
  | some v => simp [dmem, hd] at h

theorem dmem_dinsert_false (lut : LabelLut) (k k' : String) (v : Nat)
    (h : dmem lut k = false) (hne : k' ≠ k) :
    dmem (dinsert lut k' v) k = false := by
  simpa [dmem, dlookup_dinsert_ne lut k k' v hne] using h

theorem definesLbl_cons_succ (raw : String) (lines : List String) (j : Nat) (l : String) :
    definesLbl (raw :: lines) (j + 1) l ↔ definesLbl lines j l := by
  simp [definesLbl]

theorem parseAux_dup_bound (lines : List String) : ∀ (lnum : Nat) (lut : LabelLut)
    (acc : List Instr) (k2 : Nat) (l : String) (n1 : Nat) (raw2 : String) (toks2 : Toks),
    lines[k2]? = some raw2 → tokenize (preprocess raw2) = some toks2 →
    toks2.label = some l → dlookup lut l = some n1 →
    (∀ j raw, j < k2 → lines[j]? = some raw → lineOk raw) →
    (∀ j l', j < k2 → definesLbl lines j l' → dmem lut l' = false) →
    (∀ j j' l', j < j' → j' < k2 → definesLbl lines j l' → ¬ definesLbl lines j' l') →
    (∀ j, j < k2 → ¬ definesLbl lines j l) →
    ∃ lutE, parseAux lnum lines lut acc =
        .error (.dupLabel (lnum + k2) n1 (pyStrip raw2), lutE) ∧
      dlookup lutE l = some n1 := by
  induction lines with
  | nil => intro lnum lut acc k2 l n1 raw2 toks2 h2; simp at h2
  | cons raw0 rest ih =>
    intro lnum lut acc k2 l n1 raw2 toks2 h2 htk2 hlb2 hl hok hnew hpair hnotl
    cases k2 with
    | zero =>
      rw [List.getElem?_cons_zero] at h2
      have hr : raw0 = raw2 := by injection h2
      subst hr
      refine ⟨lut, ?_, hl⟩
      rw [parseAux_cons_dup lnum rest lut acc raw0 toks2 l n1
        (preprocess_ne_of_tokenize raw0 toks2 htk2) htk2 hlb2 hl]
      rfl
    | succ k =>
      rw [List.getElem?_cons_succ] at h2
      have hok0 := hok 0 raw0 (by omega) (by simp)
      rcases hok0 with hemp | ⟨toks0, htk0, hb1, hb2⟩
      · rw [parseAux_cons_skip lnum rest lut acc raw0 hemp]
        obtain ⟨lutE, hpe, hde⟩ := ih (lnum + 1) lut acc k l n1 raw2 toks2 h2 htk2 hlb2 hl
          (fun j raw hj hr => hok (j + 1) raw (by omega) (by simpa using hr))
          (fun j l' hj hd => hnew (j + 1) l' (by omega)
            ((definesLbl_cons_succ _ _ _ _).mpr hd))
          (fun j j' l' hjj hj' hd hd' => hpair (j + 1) (j' + 1) l' (by omega) (by omega)
            ((definesLbl_cons_succ _ _ _ _).mpr hd)
            ((definesLbl_cons_succ _ _ _ _).mpr hd'))
          (fun j hj hd => hnotl (j + 1) (by omega)
            ((definesLbl_cons_succ _ _ _ _).mpr hd))
        exact ⟨lutE, by rw [hpe, show lnum + 1 + k = lnum + (k + 1) from by omega], hde⟩
      · cases hlb0 : toks0.label with
        | none =>
          rw [parseAux_cons_ok_nolabel lnum rest lut acc raw0 toks0
            (preprocess_ne_of_tokenize raw0 toks0 htk0) htk0 hlb0 hb1 hb2]
          obtain ⟨lutE, hpe, hde⟩ := ih (lnum + 1) lut _ k l n1 raw2 toks2 h2 htk2 hlb2 hl
            (fun j raw hj hr => hok (j + 1) raw (by omega) (by simpa using hr))
            (fun j l' hj hd => hnew (j + 1) l' (by omega)
              ((definesLbl_cons_succ _ _ _ _).mpr hd))
            (fun j j' l' hjj hj' hd hd' => hpair (j + 1) (j' + 1) l' (by omega) (by omega)
              ((definesLbl_cons_succ _ _ _ _).mpr hd)
              ((definesLbl_cons_succ _ _ _ _).mpr hd'))
            (fun j hj hd => hnotl (j + 1) (by omega)
              ((definesLbl_cons_succ _ _ _ _).mpr hd))
          exact ⟨lutE, by rw [hpe, show lnum + 1 + k = lnum + (k + 1) from by omega], hde⟩
        | some l0 =>
          have hd0 : definesLbl (raw0 :: rest) 0 l0 :=
            ⟨raw0, toks0, List.getElem?_cons_zero, htk0, hlb0⟩
          have hl0lut : dmem lut l0 = false := hnew 0 l0 (by omega) hd0
          have hl0l : l0 ≠ l := by
            intro e
            exact hnotl 0 (by omega) (e ▸ hd0)
          rw [parseAux_cons_ok_label lnum rest lut acc raw0 toks0 l0
            (preprocess_ne_of_tokenize raw0 toks0 htk0) htk0 hlb0
            (dlookup_eq_none_of_dmem_false lut l0 hl0lut) hb1 hb2]
          obtain ⟨lutE, hpe, hde⟩ := ih (lnum + 1) (dinsert lut l0 lnum) _ k l n1 raw2 toks2
            h2 htk2 hlb2
            (by rw [dlookup_dinsert_ne lut l l0 lnum hl0l]; exact hl)
            (fun j raw hj hr => hok (j + 1) raw (by omega) (by simpa using hr))
            (fun j l' hj hd => by
              have hne : l0 ≠ l' := by
                intro e
                exact hpair 0 (j + 1) l0 (by omega) (by omega) hd0
                  ((definesLbl_cons_succ _ _ _ _).mpr (e ▸ hd))
              exact dmem_dinsert_false lut l' l0 lnum
                (hnew (j + 1) l' (by omega) ((definesLbl_cons_succ _ _ _ _).mpr hd)) hne)
            (fun j j' l' hjj hj' hd hd' => hpair (j + 1) (j' + 1) l' (by omega) (by omega)
              ((definesLbl_cons_succ _ _ _ _).mpr hd)
              ((definesLbl_cons_succ _ _ _ _).mpr hd'))
            (fun j hj hd => hnotl (j + 1) (by omega)
              ((definesLbl_cons_succ _ _ _ _).mpr hd))
          exact ⟨lutE, by rw [hpe, show lnum + 1 + k = lnum + (k + 1) from by omega], hde⟩

theorem parseAux_dup_first (lines : List String) : ∀ (lnum : Nat) (lut : LabelLut)
    (acc : List Instr) (k1 k2 : Nat) (l : String) (raw2 : String) (toks2 : Toks),
    k1 < k2 →
    definesLbl lines k1 l →
    lines[k2]? = some raw2 → tokenize (preprocess raw2) = some toks2 →
    toks2.label = some l →
    (∀ j raw, j < k2 → lines[j]? = some raw → lineOk raw) →
    (∀ j l', j < k2 → definesLbl lines j l' → dmem lut l' = false) →
    (∀ j j' l', j < j' → j' < k2 → definesLbl lines j l' → ¬ definesLbl lines j' l') →
    ∃ lutE, parseAux lnum lines lut acc =
        .error (.dupLabel (lnum + k2) (lnum + k1) (pyStrip raw2), lutE) ∧
      dlookup lutE l = some (lnum + k1) := by
  induction lines with
  | nil => intro lnum lut acc k1 k2 l raw2 toks2 _ _ h2; simp at h2
  | cons raw0 rest ih =>
    intro lnum lut acc k1 k2 l raw2 toks2 h12 hd1 h2 htk2 hlb2 hok hnew hpair
    cases k2 with
    | zero => omega
    | succ k =>
      rw [List.getElem?_cons_succ] at h2
      cases k1 with
      | zero =>
        obtain ⟨raw0', toks0, hr0, htk0, hlb0⟩ := hd1
        rw [List.getElem?_cons_zero] at hr0
        have hr : raw0' = raw0 := by injection hr0 with h; exact h.symm
        subst hr
        have hd0 : definesLbl (raw0' :: rest) 0 l :=
          ⟨raw0', toks0, List.getElem?_cons_zero, htk0, hlb0⟩
        have hl0lut : dmem lut l = false := hnew 0 l (by omega) hd0
        have hbounds := hok 0 raw0' (by omega) (by simp)
        rcases hbounds with hemp | ⟨toks0', htk0', hb1, hb2⟩
        · exact absurd hemp (preprocess_ne_of_tokenize raw0' toks0 htk0)
        · have htoks : toks0' = toks0 := by
            rw [htk0] at htk0'
            injection htk0' with h
            exact h.symm
          subst htoks
          rw [parseAux_cons_ok_label lnum rest lut acc raw0' toks0' l
            (preprocess_ne_of_tokenize raw0' toks0' htk0) htk0 hlb0
            (dlookup_eq_none_of_dmem_false lut l hl0lut) hb1 hb2]
          obtain ⟨lutE, hpe, hde⟩ := parseAux_dup_bound rest (lnum + 1)
            (dinsert lut l lnum) _ k l lnum raw2 toks2 h2 htk2 hlb2
            (dlookup_dinsert_self lut l lnum)
            (fun j raw hj hr => hok (j + 1) raw (by omega) (by simpa using hr))
            (fun j l' hj hd => by
              have hne : l ≠ l' := by
                intro e
                exact hpair 0 (j + 1) l (by omega) (by omega) hd0
                  ((definesLbl_cons_succ _ _ _ _).mpr (e ▸ hd))
              exact dmem_dinsert_false lut l' l lnum
                (hnew (j + 1) l' (by omega) ((definesLbl_cons_succ _ _ _ _).mpr hd)) hne)
            (fun j j' l' hjj hj' hd hd' => hpair (j + 1) (j' + 1) l' (by omega) (by omega)
              ((definesLbl_cons_succ _ _ _ _).mpr hd)
              ((definesLbl_cons_succ _ _ _ _).mpr hd'))
            (fun j hj hd => hpair 0 (j + 1) l (by omega) (by omega) hd0
              ((definesLbl_cons_succ _ _ _ _).mpr hd))
          refine ⟨lutE, ?_, ?_⟩
          · rw [hpe, show lnum + 1 + k = lnum + (k + 1) from by omega]
            rfl
          · simpa using hde
      | succ m =>
        have hd1' : definesLbl rest m l := (definesLbl_cons_succ _ _ _ _).mp hd1
        have hok0 := hok 0 raw0 (by omega) (by simp)
        rcases hok0 with hemp | ⟨toks0, htk0, hb1, hb2⟩
        · rw [parseAux_cons_skip lnum rest lut acc raw0 hemp]
          obtain ⟨lutE, hpe, hde⟩ := ih (lnum + 1) lut acc m k l raw2 toks2 (by omega)
            hd1' h2 htk2 hlb2
            (fun j raw hj hr => hok (j + 1) raw (by omega) (by simpa using hr))
            (fun j l' hj hd => hnew (j + 1) l' (by omega)
              ((definesLbl_cons_succ _ _ _ _).mpr hd))
            (fun j j' l' hjj hj' hd hd' => hpair (j + 1) (j' + 1) l' (by omega) (by omega)
              ((definesLbl_cons_succ _ _ _ _).mpr hd)
              ((definesLbl_cons_succ _ _ _ _).mpr hd'))
          refine ⟨lutE, ?_, ?_⟩
          · rw [hpe, show lnum + 1 + k = lnum + (k + 1) from by omega,
              show lnum + 1 + m = lnum + (m + 1) from by omega]
          · rw [hde, show lnum + 1 + m = lnum + (m + 1) from by omega]
        · cases hlb0 : toks0.label with
          | none =>
            rw [parseAux_cons_ok_nolabel lnum rest lut acc raw0 toks0
              (preprocess_ne_of_tokenize raw0 toks0 htk0) htk0 hlb0 hb1 hb2]
            obtain ⟨lutE, hpe, hde⟩ := ih (lnum + 1) lut _ m k l raw2 toks2 (by omega)
              hd1' h2 htk2 hlb2
              (fun j raw hj hr => hok (j + 1) raw (by omega) (by simpa using hr))
              (fun j l' hj hd => hnew (j + 1) l' (by omega)
                ((definesLbl_cons_succ _ _ _ _).mpr hd))
              (fun j j' l' hjj hj' hd hd' => hpair (j + 1) (j' + 1) l' (by omega) (by omega)
                ((definesLbl_cons_succ _ _ _ _).mpr hd)
                ((definesLbl_cons_succ _ _ _ _).mpr hd'))
            refine ⟨lutE, ?_, ?_⟩
            · rw [hpe, show lnum + 1 + k = lnum + (k + 1) from by omega,
                show lnum + 1 + m = lnum + (m + 1) from by omega]
            · rw [hde, show lnum + 1 + m = lnum + (m + 1) from by omega]
          | some l0 =>
            have hd0 : definesLbl (raw0 :: rest) 0 l0 :=
              ⟨raw0, toks0, List.getElem?_cons_zero, htk0, hlb0⟩
            have hl0lut : dmem lut l0 = false := hnew 0 l0 (by omega) hd0
            rw [parseAux_cons_ok_label lnum rest lut acc raw0 toks0 l0
              (preprocess_ne_of_tokenize raw0 toks0 htk0) htk0 hlb0
              (dlookup_eq_none_of_dmem_false lut l0 hl0lut) hb1 hb2]
            obtain ⟨lutE, hpe, hde⟩ := ih (lnum + 1) (dinsert lut l0 lnum) _ m k l raw2
              toks2 (by omega) hd1' h2 htk2 hlb2
              (fun j raw hj hr => hok (j + 1) raw (by omega) (by simpa using hr))
              (fun j l' hj hd => by
                have hne : l0 ≠ l' := by
                  intro e
                  exact hpair 0 (j + 1) l0 (by omega) (by omega) hd0
                    ((definesLbl_cons_succ _ _ _ _).mpr (e ▸ hd))
                exact dmem_dinsert_false lut l' l0 lnum
                  (hnew (j + 1) l' (by omega) ((definesLbl_cons_succ _ _ _ _).mpr hd)) hne)
              (fun j j' l' hjj hj' hd hd' => hpair (j + 1) (j' + 1) l' (by omega) (by omega)
                ((definesLbl_cons_succ _ _ _ _).mpr hd)
                ((definesLbl_cons_succ _ _ _ _).mpr hd'))
            refine ⟨lutE, ?_, ?_⟩
            · rw [hpe, show lnum + 1 + k = lnum + (k + 1) from by omega,
                show lnum + 1 + m = lnum + (m + 1) from by omega]
            · rw [hde, show lnum + 1 + m = lnum + (m + 1) from by omega]

/-! ## The claims -/

/-- Claim C2. A `push` whose immediate lies in the native window −8…15
passes through `translate_pseudo` as exactly one native instruction,
unchanged; a `push` with an accepted immediate outside that window
expands to exactly the 5-instruction block `push 4; push (imm >> 4);
shl; push (imm & 15); add`, whose reconstructed value
`high * 16 + low` is congruent to the original immediate mod 256; any
label of the original instruction sits on (and the label table binds it
to) the first emitted instruction of the block. -/
theorem claim_C2 (l : Option String) (imm : Int)
    (_hlo : -128 ≤ imm) (_hhi : imm ≤ 255) :
    ((-8 ≤ imm ∧ imm ≤ 15) →
      translate_pseudo [⟨l, "push", imm, none⟩] [] =
        .ok ([⟨l, "push", imm, none⟩],
          match l with | some s => [(s, 1)] | none => [])) ∧
    (¬(-8 ≤ imm ∧ imm ≤ 15) →
      translate_pseudo [⟨l, "push", imm, none⟩] [] =
        .ok ([⟨l, "push", 4, none⟩, ⟨none, "push", imm.fdiv 16, none⟩,
              ⟨none, "shl", 0, none⟩, ⟨none, "push", imm.emod 16, none⟩,
              ⟨none, "add", 0, none⟩],
          match l with | some s => [(s, 1)] | none => []) ∧
      (imm.fdiv 16 * 16 + imm.emod 16) % 256 = imm % 256) := by
  have hdiv : imm.fdiv 16 * 16 + imm.emod 16 = imm := by
    rw [Int.fdiv_eq_ediv _ (by norm_num), int_emod_eq_mod]
    omega
  cases l with
  | none =>
    have key : translate_pseudo [(⟨none, "push", imm, none⟩ : Instr)] [] =
        .ok (translInstr ⟨none, "push", imm, none⟩, []) := by
      unfold translate_pseudo
      rw [translateAux_cons_none 1 0 _ [] [] [] rfl]
      simp [translateAux, bindLbl]
    constructor
    · intro hw
      have hb : ((-8 : Int) ≤ imm && imm ≤ 15) = true := by simp [hw.1, hw.2]
      have hse : shouldExpand ⟨none, "push", imm, none⟩ = false := by
        simp [shouldExpand, hb]
      rw [key]
      simp [translInstr, hse]
    · intro hw
      have hb : ((-8 : Int) ≤ imm && imm ≤ 15) = false := by
        rw [Bool.and_eq_false_iff]
        by_cases hc1 : -8 ≤ imm
        · right; simpa using fun h => hw ⟨hc1, h⟩
        · left; simpa using hc1
      have hse : shouldExpand ⟨none, "push", imm, none⟩ = true := by
        simp [shouldExpand, hb]
      refine ⟨?_, by rw [hdiv]⟩
      rw [key]
      simp [translInstr, hse, pseudoLut, pseudoPush]
  | some lbl =>
    have key : translate_pseudo [(⟨some lbl, "push", imm, none⟩ : Instr)] [] =
        .ok (translInstr ⟨some lbl, "push", imm, none⟩, [(lbl, 1)]) := by
      unfold translate_pseudo
      rw [translateAux_cons_none 1 0 _ [] [] [] rfl]
      simp [translateAux, bindLbl, dinsert]
    constructor
    · intro hw
      have hb : ((-8 : Int) ≤ imm && imm ≤ 15) = true := by simp [hw.1, hw.2]
      have hse : shouldExpand ⟨some lbl, "push", imm, none⟩ = false := by
        simp [shouldExpand, hb]
      rw [key]
      simp [translInstr, hse]
    · intro hw
      have hb : ((-8 : Int) ≤ imm && imm ≤ 15) = false := by
        rw [Bool.and_eq_false_iff]
        by_cases hc1 : -8 ≤ imm
        · right; simpa using fun h => hw ⟨hc1, h⟩
        · left; simpa using hc1
      have hse : shouldExpand ⟨some lbl, "push", imm, none⟩ = true := by
        simp [shouldExpand, hb]
      refine ⟨?_, by rw [hdiv]⟩
      rw [key]
      simp [translInstr, hse, pseudoLut, pseudoPush]

/-- Claim C2 witness. `push 200` expands to the 5-instruction block with
high nibble 12 and low nibble 8, label bound to the block head. -/
theorem claim_C2_witness :
    translate_pseudo [⟨some "l", "push", 200, none⟩] [] =
      .ok ([⟨some "l", "push", 4, none⟩, ⟨none, "push", 12, none⟩,
            ⟨none, "shl", 0, none⟩, ⟨none, "push", 8, none⟩,
            ⟨none, "add", 0, none⟩], [("l", 1)]) ∧
    ((12 : Int) * 16 + 8) % 256 = (200 : Int) % 256 := by
  have h := (claim_C2 (some "l") 200 (by norm_num) (by norm_num)).2
    (by intro h; exact absurd h.2 (by norm_num))
  obtain ⟨he, hr⟩ := h
  have e1 : (200 : Int).fdiv 16 = 12 := by decide
  have e2 : (200 : Int).emod 16 = 8 := by decide
  rw [e1, e2] at he hr
  exact ⟨he, hr⟩

/-- Claim C3 counterexample. A symbolic `jmp` expands to 8 instructions,
not to the 11 that would result from two 5-instruction placeholder push
blocks plus the branch. -/
theorem claim_C3_counterexample :
    translate_pseudo [⟨none, "jmp", 0, some "x"⟩] [("x", 1)] =
      .ok (pseudoJmp ⟨none, "jmp", 0, some "x"⟩, [("x", 1)]) ∧
    (pseudoJmp ⟨none, "jmp", 0, some "x"⟩).length = 8 ∧
    (pseudoJmp ⟨none, "jmp", 0, some "x"⟩).length ≠ 11 := by
  refine ⟨rfl, rfl, by decide⟩

/-- Claim C3 amended. A branch carrying a symbolic target expands to
exactly 8 instructions — `puship; push 4; push 0; shl; push 0; add;
add;` original branch opcode with immediate 0 and the target retained —
one fused sequence, not two separate 5-instruction push blocks;
the count is independent of the immediate and of the final target
value. -/
theorem claim_C3 (i : Instr) (t : String) (hm : i.mnemonic = "jmp")
    (ht : i.target = some t) :
    translInstr i = pseudoJmp i ∧
    pseudoJmp i =
      [⟨i.label, "puship", 0, none⟩, ⟨none, "push", 4, none⟩, ⟨none, "push", 0, none⟩,
       ⟨none, "shl", 0, none⟩, ⟨none, "push", 0, none⟩, ⟨none, "add", 0, none⟩,
       ⟨none, "add", 0, none⟩, ⟨none, "jmp", 0, some t⟩] ∧
    (pseudoJmp i).length = 8 := by
  refine ⟨translInstr_jmp i t hm ht, ?_, rfl⟩
  simp [pseudoJmp, ht]

/-- Claim C3 witness. -/
theorem claim_C3_witness :
    translInstr ⟨none, "jmp", 0, some "x"⟩ = pseudoJmp ⟨none, "jmp", 0, some "x"⟩ ∧
    pseudoJmp ⟨none, "jmp", 0, some "x"⟩ =
      [⟨none, "puship", 0, none⟩, ⟨none, "push", 4, none⟩, ⟨none, "push", 0, none⟩,
       ⟨none, "shl", 0, none⟩, ⟨none, "push", 0, none⟩, ⟨none, "add", 0, none⟩,
       ⟨none, "add", 0, none⟩, ⟨none, "jmp", 0, some "x"⟩] ∧
    (pseudoJmp ⟨none, "jmp", 0, some "x"⟩).length = 8 :=
  claim_C3 ⟨none, "jmp", 0, some "x"⟩ "x" rfl rfl

/-- Claim C4 counterexample. The tokenizer rejects `jeq` with a symbolic
target: the regex allows a target capture only after `jmp`. -/
theorem claim_C4_counterexample : tokenize "jeq end" = none := by decide

/-- Claim C4 amended. Only `jmp` accepts an optional symbolic target
identifier; `jeq` takes no operand at all (`jeq end` is a syntax
error); and a `jmp` carrying a symbolic target always expands during
pass 2, whatever its immediate. -/
theorem claim_C4 :
    tokenize "jmp end" = some ⟨none, "jmp", none, some "end"⟩ ∧
    tokenize "jmp" = some ⟨none, "jmp", none, none⟩ ∧
    tokenize "jeq" = some ⟨none, "jeq", none, none⟩ ∧
    tokenize "jeq end" = none ∧
    (∀ i : Instr, i.mnemonic = "jmp" → i.target.isSome = true →
      shouldExpand i = true) := by
  refine ⟨by decide, by decide, by decide, by decide, ?_⟩
  intro i hm ht
  simp [shouldExpand, hm, ht]

/-- Claim C4 witness. -/
theorem claim_C4_witness :
    (⟨none, "jmp", 5, some "end"⟩ : Instr).mnemonic = "jmp" ∧
    (⟨none, "jmp", 5, some "end"⟩ : Instr).target.isSome = true ∧
    shouldExpand ⟨none, "jmp", 5, some "end"⟩ = true :=
  ⟨rfl, rfl, claim_C4.2.2.2.2 ⟨none, "jmp", 5, some "end"⟩ rfl rfl⟩

/-- Claim C10. A line consisting of a label alone (`end:`) fails
tokenization — the regex demands an instruction after the optional
label — and every successfully tokenized line carries a mnemonic from
the fixed set, so a label can be bound only together with an
instruction on its line. -/
theorem claim_C10 :
    tokenize "end:" = none ∧
    (∀ (s : String) (r : Toks), tokenize s = some r → r.mnemonic ∈ MNEMONICS) :=
  ⟨by decide, tokenize_mnem⟩

/-- Claim C10 witness. -/
theorem claim_C10_witness :
    tokenize "end: hlt" = some ⟨some "end", "hlt", none, none⟩ ∧
    ("hlt" : String) ∈ MNEMONICS :=
  ⟨by decide, claim_C10.2 "end: hlt" ⟨some "end", "hlt", none, none⟩ (by decide)⟩

/-- Claim C5 counterexample. For the one-line program `jmp missing`,
pass 1 (`parse`) succeeds — it performs no target check at all — and
the undefined-target error is raised only by pass 2
(`translate_pseudo`), whose message carries the number 2 although the
offending source line is line 1. -/
theorem claim_C5_counterexample :
    parse ["jmp missing"] [] = .ok ([⟨none, "jmp", 0, some "missing"⟩], []) ∧
    translate_pseudo [⟨none, "jmp", 0, some "missing"⟩] [] =
      .error (.undefTarget 2 "missing") ∧
    (2 : Nat) ≠ 1 :=
  ⟨rfl, rfl, by decide⟩

/-- Claim C5 amended. An undefined target is detected during pass 2
(`translate_pseudo`), not pass 1: walking the parsed sequence in order,
the first instruction (0-based index `k`) whose target is not a key of
the label table aborts the pass with a hard error naming the identifier
and the number `k + 2` — the instruction's 1-based pre-expansion index
plus one, which is not in general the source line number. Instructions
before it are checked (and expanded) first. -/
theorem claim_C5 (prog : List Instr) (lut : LabelLut) (k : Nat) (ik : Instr)
    (t : String)
    (hk : prog[k]? = some ik) (ht : ik.target = some t) (hnd : dmem lut t = false)
    (hbef : ∀ j i', j < k → prog[j]? = some i' → ∀ t', i'.target = some t' →
      dmem lut t' = true)
    (hnl : ∀ j i', j < k → prog[j]? = some i' → i'.label ≠ some t) :
    translate_pseudo prog lut = .error (.undefTarget (k + 2) t) := by
  have h := translateAux_error prog 1 0 lut [] k ik t hk ht hnd hbef hnl
  rw [translate_pseudo, h, show 1 + k + 1 = k + 2 from by omega]

/-- Claim C5 witness. -/
theorem claim_C5_witness :
    translate_pseudo [⟨none, "hlt", 0, none⟩, ⟨none, "jmp", 0, some "nowhere"⟩] [] =
      .error (.undefTarget 3 "nowhere") := by
  exact claim_C5 [⟨none, "hlt", 0, none⟩, ⟨none, "jmp", 0, some "nowhere"⟩] [] 1
    ⟨none, "jmp", 0, some "nowhere"⟩ "nowhere" rfl rfl rfl
    (by
      intro j i' hj hji' t' ht'
      interval_cases j
      simp only [List.getElem?_cons_zero, Option.some.injEq] at hji'
      rw [← hji'] at ht'
      simp at ht')
    (by
      intro j i' hj hji'
      interval_cases j
      simp only [List.getElem?_cons_zero, Option.some.injEq] at hji'
      rw [← hji']
      simp)

/-- Claim C6 counterexample. `push -1` and `push 255` — the same 8-bit
pattern — are stored as the distinct records `-1` and `255`, and they
expand differently downstream: `push -1` stays a single native
instruction while `push 255` becomes the 5-instruction block. -/
theorem claim_C6_counterexample :
    parse ["push -1"] [] = .ok ([⟨none, "push", -1, none⟩], []) ∧
    parse ["push 255"] [] = .ok ([⟨none, "push", 255, none⟩], []) ∧
    ((⟨none, "push", -1, none⟩ : Instr) ≠ ⟨none, "push", 255, none⟩) ∧
    translate_pseudo [⟨none, "push", -1, none⟩] [] =
      .ok ([⟨none, "push", -1, none⟩], []) ∧
    translate_pseudo [⟨none, "push", 255, none⟩] [] =
      .ok ([⟨none, "push", 4, none⟩, ⟨none, "push", 15, none⟩,
            ⟨none, "shl", 0, none⟩, ⟨none, "push", 15, none⟩,
            ⟨none, "add", 0, none⟩], []) :=
  ⟨rfl, rfl, by decide, rfl, rfl⟩

/-- Claim C6 amended. An accepted immediate literal is stored in the
instruction record as the parsed signed integer itself, with no 8-bit
wrapping, so a signed literal and its unsigned alias give different
records (and can expand differently); only the final nibble encoding
identifies them (`int2nibble (-1) = int2nibble 255`). -/
theorem claim_C6 (raw : String) (toks : Toks)
    (htok : tokenize (preprocess raw) = some toks) (hlbl : toks.label = none)
    (h1 : -128 ≤ imm2int toks.immStr) (h2 : imm2int toks.immStr ≤ 255) :
    parse [raw] [] =
      .ok ([⟨toks.label, toks.mnemonic, imm2int toks.immStr, toks.target⟩], []) ∧
    int2nibble (-1) = int2nibble 255 ∧ (-1 : Int) ≠ 255 := by
  refine ⟨?_, by decide, by decide⟩
  unfold parse
  rw [parseAux_cons_ok_nolabel 1 [] [] [] raw toks
    (preprocess_ne_of_tokenize raw toks htok) htok hlbl h1 h2]
  simp [parseAux]

/-- Claim C6 witness. -/
theorem claim_C6_witness :
    parse ["push 255"] [] =
      .ok ([⟨none, "push", imm2int (some "255"), none⟩], []) ∧
    int2nibble (-1) = int2nibble 255 ∧ (-1 : Int) ≠ 255 :=
  claim_C6 "push 255" ⟨none, "push", some "255", none⟩ (by decide) rfl
    (by decide) (by decide)

/-- Claim C7. If a source file defines the same label on two lines — the
(0-based) line `k1` carries the first definition of `l` and line `k2`
a later one, every line before `k2` being individually well formed and
`k2` being the first duplicate — then pass 1 fails with a
duplicate-label error whose reported first-definition number is
`k1 + 1`, the 1-based line of the first definition, and at the moment
of failure the label table still maps `l` to that first line: the first
binding wins. -/
theorem claim_C7 (lines : List String) (k1 k2 : Nat) (l : String)
    (h12 : k1 < k2)
    (hd1 : definesLbl lines k1 l) (hd2 : definesLbl lines k2 l)
    (hok : ∀ j raw, j < k2 → lines[j]? = some raw → lineOk raw)
    (hpair : ∀ j j' l', j < j' → j' < k2 → definesLbl lines j l' →
      ¬ definesLbl lines j' l') :
    ∃ raw2 lutE, lines[k2]? = some raw2 ∧
      parse lines [] = .error (.dupLabel (k2 + 1) (k1 + 1) (pyStrip raw2), lutE) ∧
      dlookup lutE l = some (k1 + 1) ∧
      (∀ j, j < k1 → ¬ definesLbl lines j l) := by
  obtain ⟨raw2, toks2, h2, htk2, hlb2⟩ := hd2
  obtain ⟨lutE, hpe, hde⟩ := parseAux_dup_first lines 1 [] [] k1 k2 l raw2 toks2 h12 hd1
    h2 htk2 hlb2 hok (fun j l' hj hd => rfl) hpair
  refine ⟨raw2, lutE, h2, ?_, ?_, ?_⟩
  · unfold parse
    rw [hpe, show 1 + k2 = k2 + 1 from by omega, show 1 + k1 = k1 + 1 from by omega]
  · rw [hde, show 1 + k1 = k1 + 1 from by omega]
  · intro j hj hd
    exact hpair j k1 l hj (by omega) hd hd1

/-- Claim C7 witness. `foo` defined on lines 1 and 3: `parse` fails with
a duplicate-label error citing line 1, and `foo` still maps to 1. -/
theorem claim_C7_witness :
    ∃ raw2 lutE, (["foo: hlt", "hlt", "foo: hlt"] : List String)[2]? = some raw2 ∧
      parse ["foo: hlt", "hlt", "foo: hlt"] [] =
        .error (.dupLabel 3 1 (pyStrip raw2), lutE) ∧
      dlookup lutE "foo" = some 1 ∧
      (∀ j, j < 0 → ¬ definesLbl ["foo: hlt", "hlt", "foo: hlt"] j "foo") := by
  exact claim_C7 ["foo: hlt", "hlt", "foo: hlt"] 0 2 "foo" (by omega)
    ⟨"foo: hlt", ⟨some "foo", "hlt", none, none⟩, rfl, by decide, rfl⟩
    ⟨"foo: hlt", ⟨some "foo", "hlt", none, none⟩, rfl, by decide, rfl⟩
    (by
      intro j raw hj hr
      interval_cases j
      · simp only [List.getElem?_cons_zero, Option.some.injEq] at hr
        subst hr
        right
        exact ⟨⟨some "foo", "hlt", none, none⟩, by decide, by decide, by decide⟩
      · simp only [List.getElem?_cons_succ, List.getElem?_cons_zero,
          Option.some.injEq] at hr
        subst hr
        right
        exact ⟨⟨none, "hlt", none, none⟩, by decide, by decide, by decide⟩)
    (by
      intro j j' l' hjj hj' hd hd'
      interval_cases j'
      · omega
      · obtain ⟨raw, toks, hraw, htk, hlb⟩ := hd'
        simp only [List.getElem?_cons_succ, List.getElem?_cons_zero,
          Option.some.injEq] at hraw
        rw [← hraw] at htk
        rw [show tokenize (preprocess "hlt") = some ⟨none, "hlt", none, none⟩
          from by decide] at htk
        injection htk with h
        rw [← h] at hlb
        cases hlb)

/-- Claim C8. After expansion, label addresses are monotone in source
order: if instruction `i` (0-based) carries label `li` and a later
instruction `j` carries label `lj` (each label not rebound afterwards),
the final table satisfies `a_li + (j - i) ≤ a_lj` — strictly
increasing, by at least 1 per instruction lying between them. -/
theorem claim_C8 (prog : List Instr) (lut : LabelLut) (hdef : wdefB prog lut = true)
    (i j : Nat) (ii ij : Instr) (li lj : String) (hij : i < j)
    (hi : prog[i]? = some ii) (hj : prog[j]? = some ij)
    (hli : ii.label = some li) (hlj : ij.label = some lj)
    (hui : ∀ n i', i < n → prog[n]? = some i' → i'.label ≠ some li)
    (huj : ∀ n i', j < n → prog[n]? = some i' → i'.label ≠ some lj) :
    ∃ out lutF ai aj,
      translate_pseudo prog lut = .ok (out, lutF) ∧
      dlookup lutF li = some ai ∧ dlookup lutF lj = some aj ∧
      ai + (j - i) ≤ aj := by
  refine ⟨prog.flatMap translInstr, lutAfter 1 0 prog lut,
    1 + i + (0 + offsetUpTo prog i), 1 + j + (0 + offsetUpTo prog j),
    translate_pseudo_ok prog lut hdef,
    lutAfter_lookup prog i ii li hi hli (fun n hn i' h => hui n i' hn h) 1 0 lut,
    lutAfter_lookup prog j ij lj hj hlj (fun n hn i' h => huj n i' hn h) 1 0 lut, ?_⟩
  have hmono := offsetUpTo_le prog i j (le_of_lt hij)
  omega

/-- Claim C8 witness. Labels `a`, `b`, `c` on a 3-instruction program
whose middle instruction expands: addresses 1 and 4 satisfy the bound
`1 + 2 ≤ 4`. -/
theorem claim_C8_witness :
    ∃ out lutF ai aj,
      translate_pseudo [⟨some "a", "hlt", 0, none⟩, ⟨some "b", "not", 0, none⟩,
        ⟨some "c", "hlt", 0, none⟩] [] = .ok (out, lutF) ∧
      dlookup lutF "a" = some ai ∧ dlookup lutF "c" = some aj ∧
      ai + (2 - 0) ≤ aj := by
  exact claim_C8 [⟨some "a", "hlt", 0, none⟩, ⟨some "b", "not", 0, none⟩,
      ⟨some "c", "hlt", 0, none⟩] [] (by decide) 0 2
    ⟨some "a", "hlt", 0, none⟩ ⟨some "c", "hlt", 0, none⟩ "a" "c" (by omega)
    rfl rfl rfl rfl
    (by
      intro n i' hn h
      rcases n with _ | _ | _ | n
      · omega
      · simp only [List.getElem?_cons_succ, List.getElem?_cons_zero,
          Option.some.injEq] at h
        rw [← h]
        simp
      · simp only [List.getElem?_cons_succ, List.getElem?_cons_zero,
          Option.some.injEq] at h
        rw [← h]
        simp
      · simp at h)
    (by
      intro n i' hn h
      rcases n with _ | _ | _ | n
      · omega
      · omega
      · omega
      · simp at h)

/-- Claim C9. For a well-formed program, pass 2 and the final loop
succeed, and: every symbolic `jmp` expands to exactly the 8-instruction
sequence `puship; push 4; push 0; shl; push 0; add; add; jmp`
(immediate 0, target retained), and its emitted block equals the plain
per-instruction encoding with exactly two entries overwritten — block
offsets 2 and 4, i.e. 5 and 3 positions before the final `jmp` at
offset 7 — by the high and low nibbles of the resolved target address;
every other emitted instruction is unchanged. -/
theorem claim_C9 (prog : List Instr) (lut : LabelLut)
    (h1 : wtJmpB prog = true) (h2 : wmB prog = true) (h3 : wdefB prog lut = true) :
    translate_pseudo prog lut = .ok (prog.flatMap translInstr, lutAfter 1 0 prog lut) ∧
    emit (prog.flatMap translInstr) (lutAfter 1 0 prog lut) =
      .ok (prog.flatMap (emitBlock (lutAfter 1 0 prog lut))) ∧
    (∀ (i : Instr) (t : String), i.mnemonic = "jmp" → i.target = some t →
      translInstr i = pseudoJmp i ∧ (pseudoJmp i).length = 8 ∧
      (∀ ta : Nat, dlookup (lutAfter 1 0 prog lut) t = some ta →
        emitBlock (lutAfter 1 0 prog lut) i =
          (((pseudoJmp i).map encodeInstr).set 2
              ("0100", int2nibble ((ta >>> 4 : Nat) : Int))).set 4
            ("0100", int2nibble (ta : Int)))) := by
  refine ⟨translate_pseudo_ok prog lut h3,
    emit_ok prog (lutAfter 1 0 prog lut) h1 h2 (wdefB_lutAfter prog prog lut 1 0 h3), ?_⟩
  intro i t hm ht
  refine ⟨translInstr_jmp i t hm ht, rfl, ?_⟩
  intro ta hta
  rw [emitBlock_jmp (lutAfter 1 0 prog lut) i t ta hm ht hta]
  simp [pseudoJmp, encodeInstr, opcodeOf, OPCODES_LUT, List.set, ht]

/-- Claim C9 witness. -/
theorem claim_C9_witness :
    translate_pseudo [⟨none, "jmp", 0, some "end"⟩, ⟨some "end", "hlt", 0, none⟩]
        [("end", 2)] =
      .ok (([⟨none, "jmp", 0, some "end"⟩,
            ⟨some "end", "hlt", 0, none⟩] : List Instr).flatMap translInstr,
        lutAfter 1 0 [⟨none, "jmp", 0, some "end"⟩,
          ⟨some "end", "hlt", 0, none⟩] [("end", 2)]) ∧
    emit (([⟨none, "jmp", 0, some "end"⟩,
          ⟨some "end", "hlt", 0, none⟩] : List Instr).flatMap translInstr)
        (lutAfter 1 0 [⟨none, "jmp", 0, some "end"⟩,
          ⟨some "end", "hlt", 0, none⟩] [("end", 2)]) =
      .ok (([⟨none, "jmp", 0, some "end"⟩,
            ⟨some "end", "hlt", 0, none⟩] : List Instr).flatMap
        (emitBlock (lutAfter 1 0 [⟨none, "jmp", 0, some "end"⟩,
          ⟨some "end", "hlt", 0, none⟩] [("end", 2)]))) := by
  have h := claim_C9 [⟨none, "jmp", 0, some "end"⟩, ⟨some "end", "hlt", 0, none⟩]
    [("end", 2)] (by decide) (by decide) (by decide)
  exact ⟨h.1, h.2.1⟩

/-- Claim C1 amended. For every well-formed program containing a symbolic
branch `jmp t` (at pre-expansion index `k1`) whose target label is
defined on the instruction at index `k2`, assembly succeeds, the label
table binds `t` to `a = k2 + 1 + offset`, which is the 1-based position
of the labelled instruction's image in the emitted sequence, and the
two patched placeholder immediates reassemble — high nibble times 16
plus low nibble — to `a % 256`: the true final address *modulo 256*
(equal to the address exactly only when it is below 256). -/
theorem claim_C1 (prog : List Instr) (lut : LabelLut)
    (h1 : wtJmpB prog = true) (h2 : wmB prog = true) (h3 : wdefB prog lut = true)
    (k1 k2 : Nat) (ij il : Instr) (t : String)
    (hk1 : prog[k1]? = some ij) (hjm : ij.mnemonic = "jmp") (hjt : ij.target = some t)
    (hk2 : prog[k2]? = some il) (hlbl : il.label = some t)
    (hu : ∀ n i', k2 < n → prog[n]? = some i' → i'.label ≠ some t) :
    ∃ la lutF bc a ihd e2 e4,
      translate_pseudo prog lut = .ok (la, lutF) ∧
      emit la lutF = .ok bc ∧
      dlookup lutF t = some a ∧
      a = k2 + 1 + offsetUpTo prog k2 ∧
      la[a - 1]? = some ihd ∧ ihd.label = some t ∧
      bc[k1 + offsetUpTo prog k1 + 2]? = some e2 ∧
      bc[k1 + offsetUpTo prog k1 + 4]? = some e4 ∧
      e2.2 = int2nibble ((a >>> 4 : Nat) : Int) ∧
      e4.2 = int2nibble (a : Int) ∧
      nibVal e2.2 * 16 + nibVal e4.2 = a % 256 := by
  have htr := translate_pseudo_ok prog lut h3
  have hem := emit_ok prog (lutAfter 1 0 prog lut) h1 h2
    (wdefB_lutAfter prog prog lut 1 0 h3)
  have ha : dlookup (lutAfter 1 0 prog lut) t =
      some (1 + k2 + (0 + offsetUpTo prog k2)) :=
    lutAfter_lookup prog k2 il t hk2 hlbl (fun n hn i' h => hu n i' hn h) 1 0 lut
  obtain ⟨hd, tl, hhd, hhdl⟩ := translInstr_head_label il
  have hla : (prog.flatMap translInstr)[k2 + offsetUpTo prog k2 + 0]? = some hd := by
    rcases flatMap_getElem_block prog translInstr (fun _ => rfl) k2 il hk2 0 with h | h
    · rw [h, hhd]
      exact List.getElem?_cons_zero
    · exfalso
      have := translInstr_length_pos il
      omega
  have hlen8 : (emitBlock (lutAfter 1 0 prog lut) ij).length = 8 := by
    rw [emitBlock_length, translInstr_jmp ij t hjm hjt]
    rfl
  have hblk := emitBlock_jmp (lutAfter 1 0 prog lut) ij t
    (1 + k2 + (0 + offsetUpTo prog k2)) hjm hjt ha
  have he2 : (prog.flatMap (emitBlock (lutAfter 1 0 prog lut)))[k1 +
      offsetUpTo prog k1 + 2]? =
      some ("0100",
        int2nibble (((1 + k2 + (0 + offsetUpTo prog k2)) >>> 4 : Nat) : Int)) := by
    rcases flatMap_getElem_block prog (emitBlock (lutAfter 1 0 prog lut))
      (fun i => emitBlock_length (lutAfter 1 0 prog lut) i) k1 ij hk1 2 with h | h
    · rw [h, hblk]; rfl
    · exfalso; omega
  have he4 : (prog.flatMap (emitBlock (lutAfter 1 0 prog lut)))[k1 +
      offsetUpTo prog k1 + 4]? =
      some ("0100", int2nibble ((1 + k2 + (0 + offsetUpTo prog k2) : Nat) : Int)) := by
    rcases flatMap_getElem_block prog (emitBlock (lutAfter 1 0 prog lut))
      (fun i => emitBlock_length (lutAfter 1 0 prog lut) i) k1 ij hk1 4 with h | h
    · rw [h, hblk]; rfl
    · exfalso; omega
  refine ⟨prog.flatMap translInstr, lutAfter 1 0 prog lut,
    prog.flatMap (emitBlock (lutAfter 1 0 prog lut)),
    1 + k2 + (0 + offsetUpTo prog k2), hd,
    ("0100", int2nibble (((1 + k2 + (0 + offsetUpTo prog k2)) >>> 4 : Nat) : Int)),
    ("0100", int2nibble ((1 + k2 + (0 + offsetUpTo prog k2) : Nat) : Int)),
    htr, hem, ha, by omega, ?_, hhdl.trans hlbl, he2, he4, rfl, rfl,
    nibble_reassemble (1 + k2 + (0 + offsetUpTo prog k2))⟩
  rw [show 1 + k2 + (0 + offsetUpTo prog k2) - 1 = k2 + offsetUpTo prog k2 + 0
    from by omega]
  exact hla

/-- Claim C1 witness. `jmp end` / `end: hlt`: the target resolves to
address 9 (1-based position of `hlt` in the 9-instruction binary), and
the patched nibbles reassemble to 9 = 9 % 256. -/
theorem claim_C1_witness :
    ∃ la lutF bc a ihd e2 e4,
      translate_pseudo [⟨none, "jmp", 0, some "end"⟩, ⟨some "end", "hlt", 0, none⟩]
          [("end", 2)] = .ok (la, lutF) ∧
      emit la lutF = .ok bc ∧
      dlookup lutF "end" = some a ∧
      a = 1 + 1 + offsetUpTo [⟨none, "jmp", 0, some "end"⟩,
        ⟨some "end", "hlt", 0, none⟩] 1 ∧
      la[a - 1]? = some ihd ∧ ihd.label = some "end" ∧
      bc[0 + offsetUpTo [⟨none, "jmp", 0, some "end"⟩,
        ⟨some "end", "hlt", 0, none⟩] 0 + 2]? = some e2 ∧
      bc[0 + offsetUpTo [⟨none, "jmp", 0, some "end"⟩,
        ⟨some "end", "hlt", 0, none⟩] 0 + 4]? = some e4 ∧
      e2.2 = int2nibble ((a >>> 4 : Nat) : Int) ∧
      e4.2 = int2nibble (a : Int) ∧
      nibVal e2.2 * 16 + nibVal e4.2 = a % 256 := by
  exact claim_C1 [⟨none, "jmp", 0, some "end"⟩, ⟨some "end", "hlt", 0, none⟩]
    [("end", 2)] (by decide) (by decide) (by decide) 0 1
    ⟨none, "jmp", 0, some "end"⟩ ⟨some "end", "hlt", 0, none⟩ "end"
    rfl rfl rfl (by decide) rfl
    (by
      intro n i' hn h
      rcases n with _ | _ | n
      · omega
      · omega
      · simp at h)

set_option maxRecDepth 100000 in
/-- Claim C1 counterexample. A 249-line program whose `end` label lands
at true final address 256: assembly succeeds silently, but the patched
placeholder nibbles reassemble to 256 % 256 = 0 ≠ 256 — they do *not*
equal the instruction's position in the emitted binary sequence. -/
theorem claim_C1_counterexample :
    ∃ la lutF bc ihd e2 e4,
      translate_pseudo cBigProg cBigLut = .ok (la, lutF) ∧
      emit la lutF = .ok bc ∧
      dlookup lutF "end" = some 256 ∧
      la.length = 256 ∧
      la[255]? = some ihd ∧ ihd.label = some "end" ∧
      bc[2]? = some e2 ∧ bc[4]? = some e4 ∧
      nibVal e2.2 * 16 + nibVal e4.2 = 0 ∧ (0 : Nat) ≠ 256 := by
  have h3 : wdefB cBigProg cBigLut = true := by decide
  have h1 : wtJmpB cBigProg = true := by decide
  have h2 : wmB cBigProg = true := by decide
  have htr := translate_pseudo_ok cBigProg cBigLut h3
  have hem := emit_ok cBigProg (lutAfter 1 0 cBigProg cBigLut) h1 h2
    (wdefB_lutAfter cBigProg cBigProg cBigLut 1 0 h3)
  have hlenP : cBigProg.length = 249 := by decide
  have hk2 : cBigProg[248]? = some ⟨some "end", "hlt", 0, none⟩ := by decide
  have hoff248 : offsetUpTo cBigProg 248 = 7 := by decide
  have hoff249 : offsetUpTo cBigProg 249 = 7 := by decide
  have hu : ∀ (n : Nat) (i' : Instr), 248 < n → cBigProg[n]? = some i' →
      i'.label ≠ some "end" := by
    intro n i' hn h
    have hnone : cBigProg[n]? = none := by
      rw [List.getElem?_eq_none_iff]
      omega
    rw [hnone] at h
    cases h
  have ha : dlookup (lutAfter 1 0 cBigProg cBigLut) "end" = some 256 := by
    have h := lutAfter_lookup cBigProg 248 ⟨some "end", "hlt", 0, none⟩ "end" hk2 rfl
      (fun n hn i' hh => hu n i' hn hh) 1 0 cBigLut
    rw [h, hoff248]
  have hlenla : (cBigProg.flatMap translInstr).length = 256 := by
    have h := flatMap_block_length cBigProg translInstr (fun _ => rfl) 249 (by omega)
    rw [show cBigProg.take 249 = cBigProg from by rw [← hlenP, List.take_length],
      hoff249] at h
    omega
  have hk1 : cBigProg[0]? = some ⟨none, "jmp", 0, some "end"⟩ := rfl
  have hblk := emitBlock_jmp (lutAfter 1 0 cBigProg cBigLut)
    ⟨none, "jmp", 0, some "end"⟩ "end" 256 rfl rfl ha
  have hla : (cBigProg.flatMap translInstr)[255]? =
      some ⟨some "end", "hlt", 0, none⟩ := by
    rcases flatMap_getElem_block cBigProg translInstr (fun _ => rfl) 248
      ⟨some "end", "hlt", 0, none⟩ hk2 0 with h | h
    · rw [hoff248] at h
      rw [show (248 + 7 + 0 : Nat) = 255 from rfl] at h
      rw [h]
      rw [show translInstr ⟨some "end", "hlt", 0, none⟩ =
        [⟨some "end", "hlt", 0, none⟩] from by decide]
      exact List.getElem?_cons_zero
    · exfalso
      have := translInstr_length_pos (⟨some "end", "hlt", 0, none⟩ : Instr)
      omega
  have hlen8 : (emitBlock (lutAfter 1 0 cBigProg cBigLut)
      ⟨none, "jmp", 0, some "end"⟩).length = 8 := by
    rw [emitBlock_length, translInstr_jmp _ "end" rfl rfl]
    rfl
  have he2 : (cBigProg.flatMap (emitBlock (lutAfter 1 0 cBigProg cBigLut)))[2]? =
      some ("0100", int2nibble ((256 >>> 4 : Nat) : Int)) := by
    rcases flatMap_getElem_block cBigProg (emitBlock (lutAfter 1 0 cBigProg cBigLut))
      (fun i => emitBlock_length _ i) 0 ⟨none, "jmp", 0, some "end"⟩ hk1 2 with h | h
    · rw [show (0 + offsetUpTo cBigProg 0 + 2 : Nat) = 2 from rfl] at h
      rw [h, hblk]
      simp
    · exfalso; omega
  have he4 : (cBigProg.flatMap (emitBlock (lutAfter 1 0 cBigProg cBigLut)))[4]? =
      some ("0100", int2nibble ((256 : Nat) : Int)) := by
    rcases flatMap_getElem_block cBigProg (emitBlock (lutAfter 1 0 cBigProg cBigLut))
      (fun i => emitBlock_length _ i) 0 ⟨none, "jmp", 0, some "end"⟩ hk1 4 with h | h
    · rw [show (0 + offsetUpTo cBigProg 0 + 4 : Nat) = 4 from rfl] at h
      rw [h, hblk]
      simp
    · exfalso; omega
  exact ⟨cBigProg.flatMap translInstr, lutAfter 1 0 cBigProg cBigLut,
    cBigProg.flatMap (emitBlock (lutAfter 1 0 cBigProg cBigLut)),
    ⟨some "end", "hlt", 0, none⟩,
    ("0100", int2nibble ((256 >>> 4 : Nat) : Int)),
    ("0100", int2nibble ((256 : Nat) : Int)),
    htr, hem, ha, hlenla, hla, rfl, he2, he4, by decide, by decide⟩

/-! ## The tokenizer justifies the well-formedness hypotheses -/

theorem instrCont_target (m : String) (rest : List Char) (io t : Option String)
    (h : instrCont m rest = some (io, t)) (ht : t.isSome = true) : m = "jmp" := by
  unfold instrCont at h
  split at h
  · split at h
    · rw [Option.map_eq_some'] at h
      obtain ⟨x, _, hfx⟩ := h
      injection hfx with h1 h2
      rw [← h2] at ht
      simp at ht
    · cases h
  · split at h
    · assumption
    · split at h
      · injection h with h1
        injection h1 with h1 h2
        rw [← h2] at ht
        simp at ht
      · cases h

theorem tryMnems_cont (ms : List String) (cs : List Char) (m : String)
    (i t : Option String) (h : tryMnems ms cs = some (m, i, t)) :
    instrCont m (cs.drop m.toList.length) = some (i, t) := by
  induction ms with
  | nil => simp [tryMnems] at h
  | cons m0 msr ih =>
    simp only [tryMnems] at h
    split at h
    · cases hc : instrCont m0 (cs.drop m0.toList.length) with
      | some r =>
        rw [hc] at h
        obtain ⟨r1, r2⟩ := r
        simp only [Option.some.injEq] at h
        injection h with h1 h2
        injection h2 with h2 h3
        rw [← h1, ← h2, ← h3]
        exact hc
      | none =>
        rw [hc] at h
        exact ih h
    · exact ih h

theorem tokenize_target_jmp (s : String) (r : Toks) (h : tokenize s = some r)
    (ht : r.target.isSome = true) : r.mnemonic = "jmp" := by
  unfold tokenize at h
  split at h
  · rename_i t0 hl
    injection h with h
    subst h
    unfold matchLineLabeled at hl
    split at hl
    · cases hl
    · split at hl
      · rw [Option.map_eq_some'] at hl
        obtain ⟨x, hx, hfx⟩ := hl
        obtain ⟨m, mi, mt⟩ := x
        rw [← hfx] at ht ⊢
        exact instrCont_target m _ mi mt (tryMnems_cont MNEMONICS _ m mi mt hx) ht
      · cases hl
  · rw [Option.map_eq_some'] at h
    obtain ⟨x, hx, hfx⟩ := h
    obtain ⟨m, mi, mt⟩ := x
    rw [← hfx] at ht ⊢
    exact instrCont_target m _ mi mt (tryMnems_cont MNEMONICS _ m mi mt hx) ht

theorem parseAux_wf (lines : List String) : ∀ (lnum : Nat) (lut : LabelLut)
    (acc pa : List Instr) (lutF : LabelLut),
    parseAux lnum lines lut acc = .ok (pa, lutF) →
    (∀ i ∈ acc, (i.target.isSome = true → i.mnemonic = "jmp") ∧
      i.mnemonic ∈ MNEMONICS) →
    ∀ i ∈ pa, (i.target.isSome = true → i.mnemonic = "jmp") ∧
      i.mnemonic ∈ MNEMONICS := by
  induction lines with
  | nil =>
    intro lnum lut acc pa lutF h hacc
    simp only [parseAux, Except.ok.injEq, Prod.mk.injEq] at h
    rw [← h.1]
    exact hacc
  | cons raw rest ih =>
    intro lnum lut acc pa lutF h hacc
    simp only [parseAux] at h
    split at h
    · exact ih (lnum + 1) lut acc pa lutF h hacc
    · split at h
      · cases h
      · rename_i toks heq
        split at h
        · cases h
        · split at h
          · cases h
          · rename_i lutm hlutm himm
            refine ih (lnum + 1) lutm _ pa lutF h ?_
            intro i hi
            rw [List.mem_append] at hi
            rcases hi with hi | hi
            · exact hacc i hi
            · rw [List.mem_singleton] at hi
              subst hi
              constructor
              · intro hts
                exact tokenize_target_jmp _ toks heq hts
              · exact tokenize_mnem _ toks heq

/-- The records produced by pass 1 always satisfy the well-formedness
facts the pipeline theorems assume: a symbolic target occurs only on
`jmp`, and every mnemonic is one of the fixed set. -/
theorem parse_wf (lines : List String) (pa : List Instr) (lutF : LabelLut)
    (h : parse lines [] = .ok (pa, lutF)) :
    wtJmpB pa = true ∧ wmB pa = true := by
  have hp := parseAux_wf lines 1 [] [] pa lutF h (by intro i hi; simp at hi)
  constructor
  · simp only [wtJmpB, List.all_eq_true]
    intro i hi
    cases htg : i.target with
    | none => simp
    | some t =>
      have := (hp i hi).1 (by rw [htg]; rfl)
      simp [this]
  · simp only [wmB, List.all_eq_true]
    intro i hi
    have := (hp i hi).2
    simpa using this
